import Mathlib

/-!
Verification development for the fuzzy-deduplication transform
(`transforms/universal/fdedup/src/fdedup_implementation.py`).

The Python classes `FdedupPreprocessor`, `FdedupFilter` and `FdedupRuntime`
are shallowly embedded as pure Lean functions.  Text is modelled as
`List Char`, machine integers as `Nat` (all hash values in the source are
unsigned), Python floats entering only the deduplication percentage are
modelled as `ℚ`, and the fallible float division is modelled as
`Option ℚ` (`none` = `ZeroDivisionError`).

Genuinely external libraries (`mmh3.hash64`, the murmur hash used inside
`MurmurMH`, `sentencepiece` tokenisation, the two text normalisers) are
abstracted into a record `Ext` of function parameters; a tokeniser outcome
of `none` models the `except` branch of `_generate_word_shingles`.

Support code of the repository that is imported by the file but is not
part of the given sources (`find`, `MurmurMH`, the collector actors
`BucketsHash` / `DocsMinHash` / `DocCollector`, the bucket processor) is
modelled from the specification; each such definition carries a doc
comment starting with `Modelled from the spec:`.

The `assert` in `_generate_minhashes` (a pure configuration check,
`num_bands * length_band ≤ num_min_hashes`) is not modelled: per the
specification a configuration violating it is a fatal error reported
before any table is processed.
-/

namespace Fdedup

/-- External collaborators of the transform, abstracted as pure functions:
`murmur64` stands for the 64-bit murmur hash used inside `MurmurMH`;
`hash64` for `mmh3.hash64(data, seed, signed=False)` returning a pair of
unsigned 64-bit values; `normalize_string` for
`TransformUtils.normalize_string`; `text_normalize` for the
`text_normalizer` package; `tokenizer` for
`SentencePieceProcessor.encode_as_pieces`, where `none` models the
tokenizer raising an exception.  `fuzzy_optimal` stands for
`fuzzy_optimal_param` of `fdedup_support` (repository support code not
under the given sources), modelled from the spec only as what matters
here: a pure function of `(threshold, num_permutations)` (spec §4.3). -/
structure Ext where
  murmur64 : List Char → Nat
  hash64 : List Nat → Nat → Nat × Nat
  normalize_string : List Char → List Char
  text_normalize : List Char → List Char
  tokenizer : List Char → Option (List (List Char))
  fuzzy_optimal : ℚ → Nat → Nat × Nat

/-- Modelled from the spec: the process-wide seed constant `RANDOM_SEED`
from `data_processing.utils` (not under the given sources); its exact
value is irrelevant, what matters is that it is a single fixed constant. -/
def RANDOM_SEED : Nat := 42

/-- Modelled from the spec: `find(s, ch)` from `fdedup_support` (not under
the given sources) — "Find positions of every delimiter in the string",
i.e. the list of indices whose character equals the delimiter. -/
def find : List Char → Char → List Nat
  | [], _ => []
  | a :: rest, c =>
      (if a = c then [0] else []) ++ (find rest c).map (· + 1)

/-- Python slicing `s[a : b]` for integer bounds as they arise in
`_generate_word_shingles` (there `0 ≤ a` and `a ≤ b ≤ len s` always
hold). -/
def pySlice (s : List Char) (a b : Int) : List Char :=
  (s.drop a.toNat).take (b - a).toNat

/-- The generic (non-Japanese) branch of
`FdedupPreprocessor._generate_word_shingles`, lines 92-101 of the source:
separator positions, the early return `[text]` when the token count is at
most the shingle size, otherwise the list comprehension over `bounds`.
The delimiter is a single character (the source's default `" "`; `find`
compares single characters). -/
def generate_word_shingles_generic (w : Nat) (d : Char) (text : List Char) :
    List (List Char) :=
  let separators := find text d
  if separators.length + 1 ≤ w then [text]
  else
    let bounds : List Int := -1 :: separators.map Int.ofNat ++ [(text.length : Int)]
    (List.range (bounds.length - w)).map fun i =>
      pySlice text (bounds.getD i 0 + 1) (bounds.getD (i + w) 0)

/-- The tokens of a text with respect to a single-character delimiter:
maximal delimiter-free segments.  Used only to state what the generic
shingles are; the executable code above never builds this list. -/
def tokensOf (d : Char) : List Char → List (List Char)
  | [] => [[]]
  | a :: rest =>
      let ts := tokensOf d rest
      if a = d then [] :: ts else (a :: ts.headD []) :: ts.tail

/-- Character offset of token `j` inside the text rebuilt from `ts`:
total length of the first `j` tokens plus the `j` delimiters before it. -/
def offsetAt (ts : List (List Char)) (j : Nat) : Nat :=
  ((ts.take j).map List.length).sum + j

/-- Separator positions of a token decomposition: the delimiter after
token `j` sits at offset `offsetAt ts (j+1) - 1`. -/
def sepPos : List (List Char) → List Nat
  | [] => []
  | [_] => []
  | t :: r :: rest => t.length :: (sepPos (r :: rest)).map (· + (t.length + 1))

/-- Modelled from the spec: the `MurmurMH` hash family of `fdedup_support`
(not under the given sources) is determined by the permutation count and
the seed; `set_environment` constructs it as
`MurmurMH(num_perm=num_permutations, seed=RANDOM_SEED)`. -/
structure MurmurMH where
  num_perm : Nat
  seed : Nat
deriving DecidableEq

/-- Modelled from the spec: "`m` is a large prime below `2^61`". -/
def mersennePrime : Nat := 2 ^ 61 - 1

/-- Modelled from the spec: the unsigned 64-bit maximum that initialises
every signature slot. -/
def U64MAX : Nat := 2 ^ 64 - 1

/-- Modelled from the spec: a deterministic 64-bit PRNG step used to draw
the `(a_i, b_i)` coefficients from the seed. -/
def lcg64 (s : Nat) : Nat :=
  (6364136223846793005 * s + 1442695040888963407) % 2 ^ 64

/-- Modelled from the spec: the `P` coefficient pairs `(a_i, b_i)` drawn
from the PRNG seeded by the fixed seed. -/
def hashPairs (seed n : Nat) : List (Nat × Nat) :=
  (List.range n).map fun i => (lcg64 (seed + 2 * i), lcg64 (seed + 2 * i + 1))

/-- Modelled from the spec: `MurmurMH.minhash` — initialise the signature
to `u64::MAX` and for each shingle update slot `i` with
`min(sig[i], (a_i * murmur64(t) + b_i) mod m)`. -/
def MurmurMH.minhash (mm : MurmurMH) (E : Ext) (shingles : List (List Char)) :
    List Nat :=
  (hashPairs mm.seed mm.num_perm).map fun ab =>
    shingles.foldl
      (fun acc t => min acc ((ab.1 * E.murmur64 t + ab.2) % mersennePrime))
      U64MAX

/-- Configuration of `FdedupPreprocessor` (its `__init__` keys, lines
44-72 of the source).  The delimiter is a single character (the default
`" "`); shard counts stand for `len(self.buckets)` and
`len(self.minhashes)`. -/
structure PreConfig where
  doc_column : String
  doc_id_column : String
  word_shingle_size : Nat
  delimiter : Char
  mn_min_hash : MurmurMH
  num_bands : Nat
  length_band : Nat
  num_bucket_shards : Nat
  num_minhash_shards : Nat
  is_japanese : Bool
deriving DecidableEq

/-- Lines 74-101 of the source: `_generate_word_shingles`, including the
mutable `self.is_japanese` flag.  The returned Bool is the flag value
after the call: the `except` branch (tokenizer outcome `none`) returns the
partially built — hence empty — shingle list and clears the flag. -/
def generate_word_shingles (E : Ext) (w : Nat) (d : Char) (isJa : Bool)
    (text : List Char) : List (List Char) × Bool :=
  if isJa then
    match E.tokenizer (E.text_normalize text) with
    | some words =>
        (((List.range (max 1 (words.length + 1 - w))).map fun i =>
          List.intercalate [d] ((words.drop i).take w)), true)
    | none => ([], false)
  else (generate_word_shingles_generic w d text, isJa)

/-- Lines 117-127 of the source: `_generate_buckets` — band key `i` is the
first component of `mmh3.hash64` of the signature slice
`min_hashes[i*r : (i+1)*r]`, with seed `RANDOM_SEED`, unsigned. -/
def generate_buckets (E : Ext) (cfg : PreConfig) (min_hashes : List Nat) :
    List Nat :=
  (List.range cfg.num_bands).map fun i =>
    (E.hash64 ((min_hashes.drop (i * cfg.length_band)).take cfg.length_band)
      RANDOM_SEED).1

/-- The request-partitioning loop shared by `_submit_buckets_minhashes`
(lines 139-141 and 150-152) and `FdedupFilter.transform` (lines 250-253):
start from `n` empty request lists and append each record to the list at
index `key mod n`. -/
def partitionBy {α : Type} (n : Nat) (key : α → Nat) (xs : List α) :
    List (List α) :=
  xs.foldl
    (fun acc x => acc.set (key x % n) (acc.getD (key x % n) [] ++ [x]))
    (List.replicate n [])

/-- Lines 129-160 of the source: `_submit_buckets_minhashes` partitions
the bucket items by `key mod len(buckets)` and the minhash entries by
`doc_id mod len(minhashes)`; request list `i` is sent to shard `i` (empty
requests are skipped, which does not change what any shard receives). -/
def submit_buckets_minhashes (cfg : PreConfig)
    (bucketItems : List (Nat × List Nat))
    (minhashes : List (Nat × Nat × List Nat)) :
    List (List (Nat × List Nat)) × List (List (Nat × Nat × List Nat)) :=
  (partitionBy cfg.num_bucket_shards (fun p => p.1) bucketItems,
   partitionBy cfg.num_minhash_shards (fun e => e.1) minhashes)

/-- The grouping of band-key pairs into the local `buckets` dict (lines
203-208 of the source): append the doc_id to the key's list, creating the
entry on first sight.  Insertion order is preserved, as for a Python
dict. -/
def addPair (acc : List (Nat × List Nat)) (p : Nat × Nat) :
    List (Nat × List Nat) :=
  if (acc.lookup p.1).isSome then
    acc.map fun q => if q.1 = p.1 then (q.1, q.2 ++ [p.2]) else q
  else acc ++ [(p.1, [p.2])]

def bucketsDict (pairs : List (Nat × Nat)) : List (Nat × List Nat) :=
  pairs.foldl addPair []

/-- A row of an input table: the integer doc id, the document text, and
the companion columns carried verbatim. -/
structure Row where
  doc_id : Nat
  contents : List Char
  other : List String
deriving DecidableEq

/-- An input table: a schema (column names) and rows. -/
structure Table where
  columns : List String
  rows : List Row
deriving DecidableEq

/-- Modelled from the spec: `TransformUtils.validate_columns` (not under
the given sources) checks that every required column is present in the
table, logging a warning when not. -/
def validate_columns (t : Table) (required : List String) : Bool :=
  required.all fun c => t.columns.contains c

/-- The per-row body of `FdedupPreprocessor.transform` (lines 194-209 of
the source): shingle the normalised document; when the shingle list is
non-empty, produce the minhash entry `(doc_id, len(doc), mh)` and one
`(band_key, doc_id)` pair per candidate band key; thread the
`is_japanese` flag. -/
def preProcessRow (E : Ext) (cfg : PreConfig) (isJa : Bool) (row : Row) :
    List (Nat × Nat) × List (Nat × Nat × List Nat) × Bool :=
  let sh := generate_word_shingles E cfg.word_shingle_size cfg.delimiter isJa
    (E.normalize_string row.contents)
  if sh.1.length > 0 then
    let mh := cfg.mn_min_hash.minhash E sh.1
    (((generate_buckets E cfg mh).map fun k => (k, row.doc_id)),
      [(row.doc_id, row.contents.length, mh)], sh.2)
  else ([], [], sh.2)

/-- Lines 162-216 of the source: `FdedupPreprocessor.transform`.  A table
missing a required column is skipped (`return [], {}`); otherwise the rows
are processed in order.  The output collects the cumulative band-key pairs
and minhash entries the transform submits (the `flush` batching groups
them into `REQUEST_LEN`-sized dict batches, which changes how the
submissions are split into messages but not what any shard receives). -/
def preTransform (E : Ext) (cfg : PreConfig) (isJa : Bool) (t : Table) :
    List (Nat × Nat) × List (Nat × Nat × List Nat) × Bool :=
  if validate_columns t [cfg.doc_column, cfg.doc_id_column] = false then
    ([], [], isJa)
  else
    t.rows.foldl
      (fun acc row =>
        let st := preProcessRow E cfg acc.2.2 row
        (acc.1 ++ st.1, acc.2.1 ++ st.2.1, st.2.2))
      ([], [], isJa)

/-- Modelled from the spec: the state of a `DocCollector` shard (not under
the given sources) — the map `doc_id → cluster_id` for kept documents and
the removed set, both as insertion-ordered lists. -/
structure DocState where
  ids : List (Nat × Nat)
  removed : List Nat
deriving DecidableEq

def emptyDoc : DocState := ⟨[], []⟩

/-- Modelled from the spec: `DocCollector.filter(ids)` returns "only
surviving ids, each paired with their final cluster representative": a
requested id in the removed set is omitted, a mapped id is paired with its
cluster id, and an unmapped surviving id is its own singleton cluster. -/
def docFilter (st : DocState) (req : List Nat) : List (Nat × Nat) :=
  req.filterMap fun i =>
    if i ∈ st.removed then none else some (i, (st.ids.lookup i).getD i)

/-- Modelled from the spec: `DocCollector.add_cluster` — set or update; on
a conflicting update the smaller representative wins and every entry
pointing at the larger one is rewritten; removed-set membership is final,
so a keep attempt for a removed doc is dropped. -/
def add_cluster (st : DocState) (p : Nat × Nat) : DocState :=
  if p.1 ∈ st.removed then st
  else
    match st.ids.lookup p.1 with
    | none => ⟨st.ids ++ [p], st.removed⟩
    | some c =>
        if c = p.2 then st
        else
          ⟨st.ids.map fun q =>
            if q.2 = max c p.2 then (q.1, min c p.2) else q, st.removed⟩

/-- Modelled from the spec: `DocCollector.add_removed` — mark as dropped
and remove any prior cluster entry. -/
def add_removed (st : DocState) (d : Nat) : DocState :=
  ⟨st.ids.eraseP fun q => q.1 == d,
   if d ∈ st.removed then st.removed else st.removed ++ [d]⟩

/-- Configuration of `FdedupFilter` (its `__init__` keys, lines 223-236 of
the source); the doc-collector shard states are passed separately. -/
structure FilterConfig where
  doc_column : String
  doc_id_column : String
  cluster_column : String
deriving DecidableEq

def eraseKey (k : Nat) (l : List (Nat × Nat)) : List (Nat × Nat) :=
  l.eraseP fun p => p.1 == k

/-- The row walk of `FdedupFilter.transform` (lines 269-278 of the
source): build the boolean mask and the parallel cluster list, popping
each found doc_id from `unique` exactly as `unique.pop(doc_id)` does. -/
def filterLoop (unique : List (Nat × Nat)) :
    List Row → List Bool × List Nat × List (Nat × Nat)
  | [] => ([], [], unique)
  | r :: rest =>
      match unique.lookup r.doc_id with
      | some c =>
          let res := filterLoop (eraseKey r.doc_id unique) rest
          (true :: res.1, c :: res.2.1, res.2.2)
      | none =>
          let res := filterLoop unique rest
          (false :: res.1, res.2.1, res.2.2)

/-- `table.filter(mask)` — keep the rows whose mask entry is true. -/
def applyMask : List Row → List Bool → List Row
  | [], _ => []
  | _, [] => []
  | r :: rs, b :: bs => if b then r :: applyMask rs bs else applyMask rs bs

/-- The output of `FdedupFilter.transform`: the kept rows, the parallel
cluster column appended by `TransformUtils.add_column`, the
`(source_documents, result_documents)` statistics (`none` models the
empty stats dict of a skipped table), and the per-shard request lists that
were sent to the doc collectors (empty when the table was skipped). -/
structure FilterOut where
  rows : List Row
  clusters : List Nat
  stats : Option (Nat × Nat)
  requests : List (List Nat)
deriving DecidableEq

/-- The `unique` dict of `FdedupFilter.transform` (lines 250-267 of the
source): partition the doc ids by `doc_id mod len(docs)`, ask each doc
collector `filter` for its share, and union the replies (their key sets
are disjoint, so the Python dict update order does not matter). -/
def survivorMap (docs : List DocState) (ids : List Nat) :
    List (Nat × Nat) :=
  ((List.range docs.length).map fun j =>
    docFilter (docs.getD j emptyDoc)
      ((partitionBy docs.length (fun i => i) ids).getD j [])).flatten

/-- Lines 238-283 of the source: `FdedupFilter.transform`.  A table
missing a required column is skipped; otherwise the survivor map is
unioned from the per-shard `filter` replies and the rows are walked in
order. -/
def fdedupFilter (cfg : FilterConfig) (docs : List DocState) (t : Table) :
    FilterOut :=
  if validate_columns t [cfg.doc_column, cfg.doc_id_column] = false then
    ⟨[], [], none, []⟩
  else
    let ids := t.rows.map fun r => r.doc_id
    let res := filterLoop (survivorMap docs ids) t.rows
    let kept := applyMask t.rows res.1
    ⟨kept, res.2.1, some (t.rows.length, kept.length),
     partitionBy docs.length (fun i => i) ids⟩

/-- The accumulator of the phase-1 driver: submitted band-key pairs,
submitted minhash entries, the worker's `is_japanese` flag, and the count
of warnings recorded for skipped tables. -/
abbrev Phase1Acc : Type :=
  List (Nat × Nat) × List (Nat × Nat × List Nat) × Bool × Nat

/-- One phase-1 step: run `FdedupPreprocessor.transform` on the next
table, accumulate its submissions, thread the flag, and — modelled from
the spec — record a warning when the table failed column validation. -/
def phase1Step (E : Ext) (cfg : PreConfig) (acc : Phase1Acc) (t : Table) :
    Phase1Acc :=
  let r := preTransform E cfg acc.2.2.1 t
  (acc.1 ++ r.1, acc.2.1 ++ r.2.1, r.2.2,
   acc.2.2.2 +
     if validate_columns t [cfg.doc_column, cfg.doc_id_column] then 0
     else 1)

/-- The sequential driver of phase 1 over the input tables (one logical
worker), starting from the configured `is_japanese` flag. -/
def phase1 (E : Ext) (cfg : PreConfig) (tables : List Table) : Phase1Acc :=
  tables.foldl (phase1Step E cfg) ([], [], cfg.is_japanese, 0)

/-- The phase-1 fold from an arbitrary flag, with nothing accumulated
yet; `phase1FoldStep` shifts a general accumulator onto it. -/
def phase1From (E : Ext) (cfg : PreConfig) (isJa : Bool)
    (tables : List Table) : Phase1Acc :=
  tables.foldl (phase1Step E cfg) ([], [], isJa, 0)

/-- The number of matching signature positions, compared against
`threshold · P` (spec §4.1: "the count of matches, not the ratio"). -/
def matchCount (s₁ s₂ : List Nat) : Nat :=
  ((s₁.zip s₂).filter fun p => p.1 == p.2).length

/-- Modelled from the spec: §4.5 step 3 ordering — doc_length descending,
ties to the smaller doc_id. -/
def docBefore (fetch : Nat → Nat × List Nat) (a b : Nat) : Bool :=
  if (fetch a).1 = (fetch b).1 then a ≤ b else (fetch b).1 < (fetch a).1

def insertSorted (le : Nat → Nat → Bool) (a : Nat) : List Nat → List Nat
  | [] => [a]
  | b :: bs => if le a b then a :: b :: bs else b :: insertSorted le a bs

def sortDocs (le : Nat → Nat → Bool) (l : List Nat) : List Nat :=
  l.foldr (insertSorted le) []

/-- The minhash entry for a doc id, as `BucketsHashProcessor` fetches it
from the minhash collectors (`(doc_length, signature)`). -/
def minhashLookup (entries : List (Nat × Nat × List Nat)) (i : Nat) :
    Nat × List Nat :=
  match entries.find? fun e => e.1 == i with
  | some e => e.2
  | none => (0, [])

/-- Modelled from the spec: the §4.5 per-bucket procedure of
`BucketsHashProcessor` (not under the given sources).  Deduplicate the
bucket's ids, skip buckets with fewer than two, sort by (length desc, id
asc), then walk: a doc matching the current representative is assigned to
it and later removed (it is a non-rep); a non-matching doc opens a new
sub-cluster as its own representative.  Returns the `(doc, cluster)`
assignments and the removed list. -/
def resolveBucket (fetch : Nat → Nat × List Nat) (θP : ℚ) (ids0 : List Nat) :
    List (Nat × Nat) × List Nat :=
  let ids := ids0.dedup
  if ids.length < 2 then ([], [])
  else
    match sortDocs (docBefore fetch) ids with
    | [] => ([], [])
    | rep :: others =>
        let step := others.foldl
          (fun (acc : Nat × List (Nat × Nat) × List Nat) dcc =>
            if θP ≤ (matchCount (fetch acc.1).2 (fetch dcc).2 : ℚ) then
              (acc.1, acc.2.1 ++ [(dcc, acc.1)], acc.2.2 ++ [dcc])
            else (dcc, acc.2.1 ++ [(dcc, dcc)], acc.2.2))
          (rep, [(rep, rep)], [])
        (step.2.1, step.2.2)

/-- Modelled from the spec: phase 2 — group all submitted band-key pairs
into buckets (the per-bucket id lists are deduplicated inside
`resolveBucket`, as `BucketsHash` dedupes re-adds), resolve each bucket,
and apply the emitted cluster assignments and removals to the doc
collector state. -/
def phase2 (θP : ℚ) (pairs : List (Nat × Nat))
    (entries : List (Nat × Nat × List Nat)) : DocState :=
  (bucketsDict pairs).foldl
    (fun st bucket =>
      let res := resolveBucket (minhashLookup entries) θP bucket.2
      res.2.foldl add_removed (res.1.foldl add_cluster st))
    emptyDoc

/-- The whole pipeline on one logical worker and one doc-collector shard
(the source defaults: one shard per collector family): phase 1 over the
tables, phase 2 bucket resolution, then the filter transform over the
same tables. -/
def runFdedup (E : Ext) (cfg : PreConfig) (fcfg : FilterConfig) (θP : ℚ)
    (tables : List Table) : List FilterOut :=
  let p1 := phase1 E cfg tables
  let doc := phase2 θP p1.1 p1.2.1
  tables.map (fdedupFilter fcfg [doc])

/-- The aggregated per-table statistics dict as `compute_execution_stats`
reads it: the two keys it consults, both absent when no input table
produced statistics (zero input tables). -/
structure AggStats where
  source_documents : Option Nat
  result_documents : Option Nat
deriving DecidableEq

/-- The metadata record built by `compute_execution_stats`. -/
structure ExecStats where
  num_buckets : Nat
  num_docs : Nat
  num_removed : Nat
  num_min_hashes : Nat
  overall_hash_memory : Nat
  dedup_pct : ℚ
deriving DecidableEq

/-- Python division `a / b` on machine integers: `b = 0` raises
`ZeroDivisionError`, modelled as `none`; the quotient is modelled exactly
in `ℚ`. -/
def pyDiv (a b : Nat) : Option ℚ :=
  if b = 0 then none else some ((a : ℚ) / (b : ℚ))

/-- Lines 492-522 of the source: `FdedupRuntime.compute_execution_stats`.
`docSizes` lists the `(d_amount, d_memory, r_amount, r_memory)` tuples the
doc collectors return from `get_size`; the bucket and minhash sums are the
runtime's accumulated fields.  Line 513 adds `sum_docs_mem` twice; line
514 computes `100 * (1.0 - result/source)` with defaults `1` and `0`, so a
missing or zero `source_documents` raises (`none`). -/
def compute_execution_stats
    (sum_buckets sum_buckets_mem sum_mh sum_mh_mem : Nat)
    (docSizes : List (Nat × Nat × Nat × Nat)) (st : AggStats) :
    Option ExecStats :=
  match pyDiv (st.result_documents.getD 1) (st.source_documents.getD 0) with
  | none => none
  | some q =>
      some ⟨sum_buckets, (docSizes.map fun s => s.1).sum,
        (docSizes.map fun s => s.2.2.1).sum, sum_mh,
        sum_buckets_mem + sum_mh_mem + (docSizes.map fun s => s.2.1).sum +
          (docSizes.map fun s => s.2.1).sum +
          (docSizes.map fun s => s.2.2.2).sum,
        100 * (1 - q)⟩

/-- A concrete external-function record for witnesses: simple executable
stand-ins for the external hashes, normalisers and tokenizer. -/
def extW : Ext where
  murmur64 := fun t => t.length
  hash64 := fun l s => (l.sum + s, 0)
  normalize_string := fun t => t
  text_normalize := fun t => t
  tokenizer := fun _ => none
  fuzzy_optimal := fun _ n => (2, n / 2)

/-- A concrete preprocessor configuration for witnesses. -/
def cfgW : PreConfig where
  doc_column := "contents"
  doc_id_column := "int_document_id"
  word_shingle_size := 2
  delimiter := ' '
  mn_min_hash := ⟨4, RANDOM_SEED⟩
  num_bands := 2
  length_band := 2
  num_bucket_shards := 1
  num_minhash_shards := 1
  is_japanese := false

/-- A concrete filter configuration for witnesses. -/
def fcfgW : FilterConfig := ⟨"contents", "int_document_id", "cluster"⟩

/-- A concrete one-row valid table for witnesses. -/
def tableW : Table :=
  ⟨["contents", "int_document_id"], [⟨1, ['a'], []⟩]⟩

/-- A second concrete one-row valid table for witnesses. -/
def tableW2 : Table :=
  ⟨["contents", "int_document_id"], [⟨2, ['b', ' ', 'c'], []⟩]⟩

/-- The runtime parameters of `FdedupRuntime` that enter worker
construction (`apply_input_params`, lines 558-582, and `set_environment`,
lines 329-384 of the source). -/
structure RuntimeParams where
  doc_column : String
  id_column : String
  threshold : ℚ
  num_permutations : Nat
  world_shingle_size : Nat
  is_japanese : Bool
  delimiter : Char
  b_actors : Nat
  m_actors : Nat
deriving DecidableEq

/-- Lines 329-384 of the source: the preprocessor configuration that
`set_environment` hands to every table-processor actor — one shared
`processor_params` dict, whose `MurmurMH` is seeded with the fixed
`RANDOM_SEED` and whose `(num_bands, length_band)` come from
`fuzzy_optimal_param(threshold, num_permutations)`.  The worker index is
accepted only to show that it does not enter the configuration. -/
def buildWorker (E : Ext) (p : RuntimeParams) (_workerId : Nat) :
    PreConfig :=
  { doc_column := p.doc_column
    doc_id_column := p.id_column
    word_shingle_size := p.world_shingle_size
    delimiter := p.delimiter
    mn_min_hash := ⟨p.num_permutations, RANDOM_SEED⟩
    num_bands := (E.fuzzy_optimal p.threshold p.num_permutations).1
    length_band := (E.fuzzy_optimal p.threshold p.num_permutations).2
    num_bucket_shards := p.b_actors
    num_minhash_shards := p.m_actors
    is_japanese := p.is_japanese }

/-- Concrete runtime parameters for witnesses. -/
def rparamsW : RuntimeParams where
  doc_column := "contents"
  id_column := "int_document_id"
  threshold := (4 : ℚ) / 5
  num_permutations := 4
  world_shingle_size := 2
  is_japanese := false
  delimiter := ' '
  b_actors := 1
  m_actors := 1

/-- The tables a given worker processes under an assignment of table
indices to workers. -/
def workerTables (assign : Nat → Nat) (tables : List Table) (wkr : Nat) :
    List Table :=
  ((tables.enum).filter fun it => assign it.1 == wkr).map fun it => it.2

/-- Phase 1 under an explicit assignment of tables to `W` workers: each
worker runs the sequential driver over its own tables with its own
configuration instance `buildWorker E p wkr`; the collectors receive the
concatenation of all workers' submissions. -/
def phase1Assigned (E : Ext) (p : RuntimeParams) (W : Nat)
    (assign : Nat → Nat) (tables : List Table) :
    List (Nat × Nat) × List (Nat × Nat × List Nat) :=
  ((List.range W).map fun wkr =>
    phase1 E (buildWorker E p wkr) (workerTables assign tables wkr)).foldl
    (fun acc r => (acc.1 ++ r.1, acc.2 ++ r.2.1)) ([], [])

/-- Boolean `≤` on naturals, used as the canonical ordering below. -/
def leb (a b : Nat) : Bool := decide (a ≤ b)

/-- Ascending insertion sort on naturals. -/
def sortNat (l : List Nat) : List Nat := sortDocs leb l

/-- Modelled from the spec: the bucket-collector state viewed canonically.
The spec's bucket state is "a mapping `band_key → set of doc_ids`": here
the band keys appear in ascending order and each bucket holds its
distinct doc ids in ascending order.  This canonical view is independent
of the order in which the `(band_key, doc_id)` pairs arrived, which is
what makes the outcome of bucket resolution a function of the submitted
set alone (`resolveBucket` re-sorts every bucket by document length and
id anyway, so the stored order carries no information). -/
def bucketsCanon (pairs : List (Nat × Nat)) : List (Nat × List Nat) :=
  (sortNat ((pairs.map fun p => p.1).dedup)).map fun k =>
    (k, sortNat (((pairs.filter fun p => p.1 == k).map fun p => p.2).dedup))

/-- Modelled from the spec: phase 2 over the canonical bucket view —
resolve every bucket per §4.5 and apply the emitted cluster assignments
and removals to the doc-collector state. -/
def phase2Canon (θP : ℚ) (pairs : List (Nat × Nat))
    (entries : List (Nat × Nat × List Nat)) : DocState :=
  (bucketsCanon pairs).foldl
    (fun st bucket =>
      let res := resolveBucket (minhashLookup entries) θP bucket.2
      res.2.foldl add_removed (res.1.foldl add_cluster st))
    emptyDoc

/-- An end-to-end run with an explicit assignment of tables to `W`
preprocessing workers: phase 1 under the assignment, phase 2 over the
canonical bucket view of the submissions, then the filter transform over
the input tables against the resulting doc collector.  The first
component is the final doc-collector state — the surviving doc ids with
their cluster ids, and the removed set. -/
def runFdedupAssigned (E : Ext) (p : RuntimeParams) (fcfg : FilterConfig)
    (θP : ℚ) (W : Nat) (assign : Nat → Nat) (tables : List Table) :
    DocState × List FilterOut :=
  (phase2Canon θP (phase1Assigned E p W assign tables).1
    (phase1Assigned E p W assign tables).2,
   tables.map (fdedupFilter fcfg
    [phase2Canon θP (phase1Assigned E p W assign tables).1
      (phase1Assigned E p W assign tables).2]))

theorem tokensOf_ne_nil (d : Char) (s : List Char) : tokensOf d s ≠ [] := by
  cases s with
  | nil => simp [tokensOf]
  | cons a rest => by_cases h : a = d <;> simp [tokensOf, h]

theorem intercalate_tokensOf (d : Char) (s : List Char) :
    List.intercalate [d] (tokensOf d s) = s := by
  induction s with
  | nil => simp [tokensOf, List.intercalate]
  | cons a rest ih =>
      rcases hts : tokensOf d rest with _ | ⟨t, ts⟩
      · exact absurd hts (tokensOf_ne_nil d rest)
      · rw [hts] at ih
        by_cases h : a = d
        · rw [show tokensOf d (a :: rest) = [] :: t :: ts by
              simp [tokensOf, hts, h]]
          rw [show List.intercalate [d] ([] :: t :: ts) =
                [] ++ [d] ++ List.intercalate [d] (t :: ts) by
              simp [List.intercalate, List.intersperse]]
          simp [ih, h]
        · rw [show tokensOf d (a :: rest) = (a :: t) :: ts by
              simp [tokensOf, hts, h]]
          cases ts with
          | nil => simpa [List.intercalate] using congrArg (a :: ·) ih
          | cons t' ts' =>
              rw [show List.intercalate [d] ((a :: t) :: t' :: ts') =
                    (a :: t) ++ [d] ++ List.intercalate [d] (t' :: ts') by
                  simp [List.intercalate, List.intersperse]]
              rw [show List.intercalate [d] (t :: t' :: ts') =
                    t ++ [d] ++ List.intercalate [d] (t' :: ts') by
                  simp [List.intercalate, List.intersperse]] at ih
              simpa using congrArg (a :: ·) ih

theorem not_mem_of_mem_tokensOf (d : Char) (s : List Char) :
    ∀ t ∈ tokensOf d s, d ∉ t := by
  induction s with
  | nil => simp [tokensOf]
  | cons a rest ih =>
      rcases hts : tokensOf d rest with _ | ⟨t, ts⟩
      · exact absurd hts (tokensOf_ne_nil d rest)
      · rw [hts] at ih
        by_cases h : a = d
        · rw [show tokensOf d (a :: rest) = [] :: t :: ts by
              simp [tokensOf, hts, h]]
          intro u hu
          rcases List.mem_cons.mp hu with hu | hu
          · simp [hu]
          · exact ih u hu
        · rw [show tokensOf d (a :: rest) = (a :: t) :: ts by
              simp [tokensOf, hts, h]]
          intro u hu
          rcases List.mem_cons.mp hu with hu | hu
          · subst hu
            intro hd
            rcases List.mem_cons.mp hd with hd | hd
            · exact h hd.symm
            · exact ih t (by simp) hd
          · exact ih u (List.mem_cons_of_mem _ hu)

theorem map_add_getD (l : List Nat) (c j : Nat) (h : j < l.length) :
    (l.map (· + c)).getD j 0 = l.getD j 0 + c := by
  rw [List.getD_eq_getElem?_getD, List.getElem?_map, List.getD_eq_getElem?_getD,
    List.getElem?_eq_getElem h]
  simp

theorem find_append (xs ys : List Char) (d : Char) :
    find (xs ++ ys) d = find xs d ++ (find ys d).map (· + xs.length) := by
  induction xs with
  | nil => simp [find]
  | cons a rest ih =>
      have hmm : ((find ys d).map (· + rest.length)).map (· + 1) =
          (find ys d).map (· + (rest.length + 1)) := by
        rw [List.map_map]
        apply List.map_congr_left
        intro x _
        simp only [Function.comp_apply]
        omega
      simp [find, ih, List.map_append, hmm, List.append_assoc]

theorem find_eq_nil (xs : List Char) (d : Char) (h : d ∉ xs) : find xs d = [] := by
  induction xs with
  | nil => rfl
  | cons a rest ih =>
      simp only [List.mem_cons, not_or] at h
      have ha : ¬a = d := fun hx => h.1 hx.symm
      simp [find, ha, ih h.2]

theorem find_singleton (d : Char) : find [d] d = [0] := by simp [find]

theorem intercalate_one (d : Char) (t : List Char) :
    List.intercalate [d] [t] = t := by
  simp [List.intercalate, List.intersperse]

theorem intercalate_cons₂ (d : Char) (t r : List Char) (rest : List (List Char)) :
    List.intercalate [d] (t :: r :: rest) =
      t ++ [d] ++ List.intercalate [d] (r :: rest) := by
  simp [List.intercalate, List.intersperse]

theorem find_intercalate (d : Char) (ts : List (List Char)) (hne : ts ≠ [])
    (hfree : ∀ t ∈ ts, d ∉ t) :
    find (List.intercalate [d] ts) d = sepPos ts := by
  induction ts with
  | nil => exact absurd rfl hne
  | cons t rest ih =>
      cases rest with
      | nil =>
          rw [intercalate_one]
          exact find_eq_nil t d (hfree t (by simp))
      | cons r rest' =>
          rw [intercalate_cons₂, List.append_assoc, find_append,
            find_eq_nil t d (hfree t (by simp)),
            show ([d] ++ List.intercalate [d] (r :: rest') : List Char) =
              d :: List.intercalate [d] (r :: rest') by simp,
            show find (d :: List.intercalate [d] (r :: rest')) d =
              [0] ++ (find (List.intercalate [d] (r :: rest')) d).map (· + 1) by
                simp [find],
            ih (by simp) (fun u hu => hfree u (List.mem_cons_of_mem _ hu))]
          have hmap : (sepPos (r :: rest')).map ((· + t.length) ∘ (· + 1)) =
              (sepPos (r :: rest')).map (· + (t.length + 1)) := by
            apply List.map_congr_left
            intro x _
            simp only [Function.comp_apply]
            omega
          simp only [sepPos, List.nil_append, List.map_append, List.map_map,
            List.map_cons, List.map_nil, Nat.zero_add, hmap,
            List.singleton_append]

theorem length_sepPos (ts : List (List Char)) :
    (sepPos ts).length = ts.length - 1 := by
  induction ts with
  | nil => rfl
  | cons t rest ih =>
      cases rest with
      | nil => rfl
      | cons r rest' => simp [sepPos, ih]

theorem offsetAt_zero (ts : List (List Char)) : offsetAt ts 0 = 0 := by
  simp [offsetAt]

theorem offsetAt_cons (t : List Char) (ts : List (List Char)) (j : Nat) :
    offsetAt (t :: ts) (j + 1) = t.length + 1 + offsetAt ts j := by
  simp [offsetAt, List.take_succ_cons]
  omega

theorem sepPos_getD (ts : List (List Char)) (j : Nat) (hj : j + 1 < ts.length) :
    (sepPos ts).getD j 0 + 1 = offsetAt ts (j + 1) := by
  induction ts generalizing j with
  | nil => simp at hj
  | cons t rest ih =>
      cases rest with
      | nil => simp at hj
      | cons r rest' =>
          cases j with
          | zero => simp [sepPos, offsetAt]
          | succ j' =>
              have hj' : j' + 1 < (r :: rest').length := by
                simpa using Nat.lt_of_succ_lt_succ hj
              have hlen : j' < (sepPos (r :: rest')).length := by
                rw [length_sepPos]
                simp only [List.length_cons] at hj' ⊢
                omega
              have key := ih j' hj'
              simp only [sepPos, List.getD_cons_succ]
              rw [map_add_getD _ _ _ hlen, offsetAt_cons]
              omega

theorem offsetAt_add (ts : List (List Char)) (i w : Nat) (hi : i ≤ ts.length) :
    offsetAt ts (i + w) = offsetAt ts i + offsetAt (ts.drop i) w := by
  simp only [offsetAt, List.take_add, List.map_append, List.sum_append]
  have : (ts.take i).length = i := List.length_take_of_le hi
  omega

theorem length_intercalate (d : Char) (ts : List (List Char)) (hne : ts ≠ []) :
    (List.intercalate [d] ts).length + 1 = offsetAt ts ts.length := by
  induction ts with
  | nil => exact absurd rfl hne
  | cons t rest ih =>
      cases rest with
      | nil => simp [intercalate_one, offsetAt]
      | cons r rest' =>
          have h2 := ih (by simp)
          rw [intercalate_cons₂]
          simp only [List.length_append, List.length_cons, List.length_nil]
          rw [offsetAt_cons]
          simp only [List.length_cons] at h2
          omega

theorem drop_intercalate (d : Char) (ts : List (List Char)) (i : Nat)
    (hi : i ≤ ts.length) :
    (List.intercalate [d] ts).drop (offsetAt ts i) =
      List.intercalate [d] (ts.drop i) := by
  induction i generalizing ts with
  | zero => simp [offsetAt_zero]
  | succ i' ih =>
      cases ts with
      | nil => simp at hi
      | cons t rest =>
          cases rest with
          | nil =>
              have h0 : i' = 0 := by simpa using Nat.le_of_succ_le_succ hi
              subst h0
              rw [offsetAt_cons, offsetAt_zero, intercalate_one]
              simp [List.intercalate]
          | cons r rest' =>
              have hi' : i' ≤ (r :: rest').length := by
                simpa using Nat.le_of_succ_le_succ hi
              rw [intercalate_cons₂, offsetAt_cons,
                show t.length + 1 + offsetAt (r :: rest') i' =
                    (t ++ [d]).length + offsetAt (r :: rest') i' by
                  simp,
                List.drop_append, ih _ hi']
              simp

theorem take_intercalate (d : Char) (ts : List (List Char)) (w : Nat)
    (hw : 1 ≤ w) (hwl : w ≤ ts.length) :
    (List.intercalate [d] ts).take (offsetAt ts w - 1) =
      List.intercalate [d] (ts.take w) := by
  induction w generalizing ts with
  | zero => omega
  | succ w' ih =>
      cases ts with
      | nil => simp at hwl
      | cons t rest =>
          cases Nat.eq_zero_or_pos w' with
          | inl h0 =>
              subst h0
              have hamt : offsetAt (t :: rest) (0 + 1) - 1 = t.length := by
                rw [offsetAt_cons, offsetAt_zero]
                omega
              rw [hamt]
              cases rest with
              | nil => simp [intercalate_one]
              | cons r rest' =>
                  rw [intercalate_cons₂,
                    show ((t ++ [d]) ++ List.intercalate [d] (r :: rest')).take
                        t.length = (t ++ ([d] ++ List.intercalate [d]
                          (r :: rest'))).take (t.length + 0) by
                      simp [List.append_assoc]]
                  rw [List.take_append 0]
                  simp [intercalate_one]
          | inr hpos =>
              cases rest with
              | nil =>
                  simp only [List.length_cons, List.length_nil] at hwl
                  omega
              | cons r rest' =>
                  have hwl' : w' ≤ (r :: rest').length := by
                    simpa using Nat.le_of_succ_le_succ hwl
                  have hge : 1 ≤ offsetAt (r :: rest') w' := by
                    have : w' ≤ offsetAt (r :: rest') w' := by
                      simp [offsetAt]
                    omega
                  rw [intercalate_cons₂, offsetAt_cons,
                    show t.length + 1 + offsetAt (r :: rest') w' - 1 =
                      (t ++ [d]).length + (offsetAt (r :: rest') w' - 1) by
                        simp only [List.length_append, List.length_cons,
                          List.length_nil]
                        omega,
                    List.take_append, ih _ hpos hwl']
                  have htk : (t :: r :: rest').take (w' + 1) =
                      t :: (r :: rest').take w' := by
                    simp [List.take_succ_cons]
                  rw [htk]
                  have hne : (r :: rest').take w' ≠ [] := by
                    intro hcon
                    have := congrArg List.length hcon
                    simp only [List.length_take, List.length_nil,
                      List.length_cons] at this
                    omega
                  rcases List.exists_cons_of_ne_nil hne with ⟨u, us, hus⟩
                  rw [hus, intercalate_cons₂]

theorem length_tokensOf (d : Char) (text : List Char) :
    (tokensOf d text).length = (find text d).length + 1 := by
  have hne := tokensOf_ne_nil d text
  have h1 : find (List.intercalate [d] (tokensOf d text)) d =
      sepPos (tokensOf d text) :=
    find_intercalate d _ hne (not_mem_of_mem_tokensOf d text)
  rw [intercalate_tokensOf] at h1
  rw [h1, length_sepPos]
  have : (tokensOf d text).length ≠ 0 := fun h =>
    hne (List.length_eq_zero.mp h)
  omega

theorem find_tokensOf (d : Char) (text : List Char) :
    find text d = sepPos (tokensOf d text) := by
  have h1 : find (List.intercalate [d] (tokensOf d text)) d =
      sepPos (tokensOf d text) :=
    find_intercalate d _ (tokensOf_ne_nil d text)
      (not_mem_of_mem_tokensOf d text)
  rwa [intercalate_tokensOf] at h1

theorem bounds_getD (d : Char) (text : List Char) (j : Nat)
    (hj : j ≤ (tokensOf d text).length) :
    ((-1 : Int) :: (find text d).map Int.ofNat ++
        [(text.length : Int)]).getD j 0 =
      (offsetAt (tokensOf d text) j : Int) - 1 := by
  cases j with
  | zero => simp [offsetAt_zero]
  | succ k =>
      have hlen : (find text d).length = (tokensOf d text).length - 1 := by
        have := length_tokensOf d text
        omega
      have hn1 : 1 ≤ (tokensOf d text).length := by
        have := length_tokensOf d text
        omega
      rw [List.getD_eq_getElem?_getD]
      by_cases hk : k < (find text d).length
      · rw [List.getElem?_append_left (by simp; omega), List.getElem?_cons_succ,
          List.getElem?_map, List.getElem?_eq_getElem hk]
        have hsep := sepPos_getD (tokensOf d text) k (by omega)
        rw [← find_tokensOf] at hsep
        have hget : (find text d)[k] = (find text d).getD k 0 := by
          rw [List.getD_eq_getElem?_getD, List.getElem?_eq_getElem hk]
          rfl
        simp only [Option.map_some', Option.getD_some, Int.ofNat_eq_natCast]
        omega
      · have hke : k = (find text d).length := by omega
        subst hke
        rw [List.getElem?_append_right (by simp)]
        simp only [List.length_cons, List.length_map]
        rw [show (find text d).length + 1 - ((find text d).length + 1) = 0 by
          omega]
        have hli := length_intercalate d (tokensOf d text)
          (tokensOf_ne_nil d text)
        rw [intercalate_tokensOf] at hli
        simp only [List.getElem?_cons_zero, Option.getD_some]
        rw [hlen]
        have h2 : (tokensOf d text).length - 1 + 1 =
            (tokensOf d text).length := by omega
        rw [h2, ← hli]
        push_cast
        omega

theorem offsetAt_ge (ts : List (List Char)) (w : Nat) : w ≤ offsetAt ts w := by
  simp [offsetAt]

/-- C5: on the generic shingling path, if the token count (delimiter
occurrences plus one) is at most `w` the result is the single shingle
`[text]`; otherwise there are exactly `tokenCount - w + 1` shingles and
shingle `i` is the window of `w` consecutive tokens starting at token `i`,
joined by the delimiter (hence a verbatim substring of `text`, see
`intercalate_tokensOf`). -/
theorem generic_shingles_spec (w : Nat) (d : Char) (text : List Char)
    (hw : 1 ≤ w) :
    ((find text d).length + 1 ≤ w →
      generate_word_shingles_generic w d text = [text]) ∧
    (w < (find text d).length + 1 →
      (generate_word_shingles_generic w d text).length =
        ((find text d).length + 1) - w + 1 ∧
      ∀ i, i < (generate_word_shingles_generic w d text).length →
        (generate_word_shingles_generic w d text).getD i [] =
          List.intercalate [d] (((tokensOf d text).drop i).take w)) := by
  set n := (tokensOf d text).length with hn
  have hcount : n = (find text d).length + 1 := length_tokensOf d text
  constructor
  · intro hle
    simp [generate_word_shingles_generic, hle]
  · intro hgt
    have hcond : ¬((find text d).length + 1 ≤ w) := by omega
    have hres : generate_word_shingles_generic w d text =
        (List.range (((-1 : Int) :: (find text d).map Int.ofNat ++
            [(text.length : Int)]).length - w)).map fun i =>
          pySlice text
            (((-1 : Int) :: (find text d).map Int.ofNat ++
              [(text.length : Int)]).getD i 0 + 1)
            (((-1 : Int) :: (find text d).map Int.ofNat ++
              [(text.length : Int)]).getD (i + w) 0) := by
      simp only [generate_word_shingles_generic, if_neg hcond]
    have hblen : ((-1 : Int) :: (find text d).map Int.ofNat ++
        [(text.length : Int)]).length = n + 1 := by
      simp only [List.length_cons, List.length_append, List.length_map,
        List.length_nil]
      omega
    have hreslen : (generate_word_shingles_generic w d text).length =
        n + 1 - w := by
      rw [hres, List.length_map, List.length_range, hblen]
    refine ⟨by omega, ?_⟩
    intro i hi
    rw [hreslen] at hi
    have hiw : i + w ≤ n := by omega
    have hgetDres : (generate_word_shingles_generic w d text).getD i [] =
        pySlice text
          (((-1 : Int) :: (find text d).map Int.ofNat ++
            [(text.length : Int)]).getD i 0 + 1)
          (((-1 : Int) :: (find text d).map Int.ofNat ++
            [(text.length : Int)]).getD (i + w) 0) := by
      rw [hres, List.getD_eq_getElem?_getD, List.getElem?_map,
        List.getElem?_range (by rw [hblen]; omega)]
      rfl
    rw [hgetDres, bounds_getD d text i (by omega),
      bounds_getD d text (i + w) (by omega)]
    have hadd : offsetAt (tokensOf d text) (i + w) =
        offsetAt (tokensOf d text) i +
          offsetAt ((tokensOf d text).drop i) w :=
      offsetAt_add _ i w (by omega)
    have hwge : 1 ≤ offsetAt ((tokensOf d text).drop i) w := by
      have := offsetAt_ge ((tokensOf d text).drop i) w
      omega
    unfold pySlice
    have ha : ((offsetAt (tokensOf d text) i : Int) - 1 + 1).toNat =
        offsetAt (tokensOf d text) i := by omega
    have hb : ((offsetAt (tokensOf d text) (i + w) : Int) - 1 -
        ((offsetAt (tokensOf d text) i : Int) - 1 + 1)).toNat =
        offsetAt ((tokensOf d text).drop i) w - 1 := by
      rw [hadd]
      push_cast
      omega
    have hdrop : List.drop (offsetAt (tokensOf d text) i) text =
        List.intercalate [d] ((tokensOf d text).drop i) := by
      have h1 := drop_intercalate d (tokensOf d text) i (by omega)
      rwa [intercalate_tokensOf] at h1
    have htake : List.take (offsetAt ((tokensOf d text).drop i) w - 1)
        (List.intercalate [d] ((tokensOf d text).drop i)) =
        List.intercalate [d] (((tokensOf d text).drop i).take w) :=
      take_intercalate d _ w hw (by rw [List.length_drop]; omega)
    rw [ha, hb, hdrop, htake]

/-- Witness for `generic_shingles_spec` at `w = 2`, delimiter a blank, and
the five-character text `a b c`. -/
theorem generic_shingles_spec_witness :
    (generate_word_shingles_generic 2 ' ' ['a', ' ', 'b', ' ', 'c']).length =
      ((find ['a', ' ', 'b', ' ', 'c'] ' ').length + 1) - 2 + 1 :=
  ((generic_shingles_spec 2 ' ' ['a', ' ', 'b', ' ', 'c']
    (by decide)).2 (by decide)).1

theorem minhash_length (mm : MurmurMH) (E : Ext)
    (shingles : List (List Char)) :
    (mm.minhash E shingles).length = mm.num_perm := by
  simp [MurmurMH.minhash, hashPairs]

theorem generate_buckets_length (E : Ext) (cfg : PreConfig)
    (min_hashes : List Nat) :
    (generate_buckets E cfg min_hashes).length = cfg.num_bands := by
  simp [generate_buckets]

theorem partitionBy_nil {α : Type} (n : Nat) (key : α → Nat) :
    partitionBy n key ([] : List α) = List.replicate n [] := rfl

theorem partitionBy_append_single {α : Type} (n : Nat) (key : α → Nat)
    (xs : List α) (x : α) :
    partitionBy n key (xs ++ [x]) =
      (partitionBy n key xs).set (key x % n)
        ((partitionBy n key xs).getD (key x % n) [] ++ [x]) := by
  simp [partitionBy, List.foldl_append]

theorem length_partitionBy {α : Type} (n : Nat) (key : α → Nat)
    (xs : List α) : (partitionBy n key xs).length = n := by
  induction xs using List.reverseRecOn with
  | nil => simp [partitionBy]
  | append_singleton xs x ih =>
      rw [partitionBy_append_single]
      simp [ih]

theorem partitionBy_eq_filter {α : Type} (n : Nat) (key : α → Nat)
    (xs : List α) (hn : 0 < n) :
    partitionBy n key xs =
      (List.range n).map fun j => xs.filter fun x => key x % n == j := by
  induction xs using List.reverseRecOn with
  | nil =>
      rw [partitionBy_nil]
      apply List.ext_getElem?
      intro i
      by_cases hi : i < n
      · rw [List.getElem?_map, List.getElem?_range hi,
          List.getElem?_replicate_of_lt hi]
        simp
      · rw [List.getElem?_eq_none (by simpa using Nat.le_of_not_lt hi),
          List.getElem?_eq_none (by simpa using Nat.le_of_not_lt hi)]
  | append_singleton xs x ih =>
      rw [partitionBy_append_single, ih]
      have hj₀n : key x % n < n := Nat.mod_lt _ hn
      have hgetD : ((List.range n).map fun j =>
            xs.filter fun y => key y % n == j).getD (key x % n) [] =
          xs.filter fun y => key y % n == key x % n := by
        rw [List.getD_eq_getElem?_getD, List.getElem?_map,
          List.getElem?_range hj₀n]
        rfl
      apply List.ext_getElem?
      intro i
      by_cases hi : i < n
      · by_cases hij : i = key x % n
        · subst hij
          rw [List.getElem?_set_self (by simpa using hi), hgetD,
            List.getElem?_map, List.getElem?_range hi]
          simp [List.filter_append]
        · rw [List.getElem?_set_ne (fun h => hij h.symm), List.getElem?_map,
            List.getElem?_map, List.getElem?_range hi]
          have hbe : (key x % n == i) = false := by
            simp only [beq_eq_false_iff_ne, ne_eq]
            exact fun h => hij h.symm
          simp [List.filter_append, hbe]
      · rw [List.getElem?_eq_none, List.getElem?_eq_none]
        · simpa using Nat.le_of_not_lt hi
        · simp only [List.length_set, List.length_map, List.length_range]
          exact Nat.le_of_not_lt hi

theorem partitionBy_getD {α : Type} (n : Nat) (key : α → Nat) (xs : List α)
    (j : Nat) (hn : 0 < n) (hj : j < n) :
    (partitionBy n key xs).getD j [] =
      xs.filter fun x => key x % n == j := by
  rw [partitionBy_eq_filter n key xs hn, List.getD_eq_getElem?_getD,
    List.getElem?_map, List.getElem?_range hj]
  rfl

theorem mem_partitionBy {α : Type} (n : Nat) (key : α → Nat) (xs : List α)
    (j : Nat) (hn : 0 < n) (hj : j < n) (x : α) :
    x ∈ (partitionBy n key xs).getD j [] ↔ x ∈ xs ∧ key x % n = j := by
  rw [partitionBy_getD n key xs j hn hj, List.mem_filter]
  simp

/-- C2 (code bug): with zero input tables the aggregated statistics carry
neither key, the defaults make line 514 compute `100 * (1.0 - 1/0)`, and
`compute_execution_stats` raises `ZeroDivisionError` (`none`) instead of
reporting a metadata document of zeros. -/
theorem compute_execution_stats_empty_run_raises :
    compute_execution_stats 0 0 0 0 [] ⟨none, none⟩ = none := by
  rfl

/-- C10: whenever `compute_execution_stats` returns a metadata document,
its overall hash memory equals bucket-collector memory plus
minhash-collector memory plus twice the kept-document memory plus the
removed-document memory. -/
theorem overall_hash_memory_double_counts
    (sb sbm smh smhm : Nat) (docSizes : List (Nat × Nat × Nat × Nat))
    (st : AggStats) (m : ExecStats)
    (h : compute_execution_stats sb sbm smh smhm docSizes st = some m) :
    m.overall_hash_memory =
      sbm + smhm + 2 * (docSizes.map fun s => s.2.1).sum +
        (docSizes.map fun s => s.2.2.2).sum := by
  unfold compute_execution_stats at h
  cases hq : pyDiv (st.result_documents.getD 1) (st.source_documents.getD 0) with
  | none => rw [hq] at h; exact absurd h (by simp)
  | some q =>
      rw [hq] at h
      simp only [Option.some.injEq] at h
      rw [← h]
      dsimp only
      omega

/-- Witness for `overall_hash_memory_double_counts` on a concrete run
with one doc collector reporting `(5, 6, 7, 8)`. -/
theorem overall_hash_memory_double_counts_witness :
    (ExecStats.mk 1 5 7 3 26 50).overall_hash_memory =
      2 + 4 + 2 * (([((5 : Nat), (6 : Nat), (7 : Nat), (8 : Nat))]).map
          fun s => s.2.1).sum +
        (([((5 : Nat), (6 : Nat), (7 : Nat), (8 : Nat))]).map
          fun s => s.2.2.2).sum :=
  overall_hash_memory_double_counts 1 2 3 4 [(5, 6, 7, 8)]
    ⟨some 4, some 2⟩ ⟨1, 5, 7, 3, 26, 50⟩ (by
      unfold compute_execution_stats pyDiv
      norm_num)

/-- C6: a signature yields exactly `num_bands` band keys; band key `i` is
the unsigned 64-bit hash of the signature slice `[i·r, (i+1)·r)` with the
fixed seed; in `_submit_buckets_minhashes` a bucket item with key `k`
lands exactly in the request list of shard `k mod N`; and one document row
contributes at most `num_bands` `(band_key, doc_id)` pairs. -/
theorem band_keys_spec (E : Ext) (cfg : PreConfig) (sig : List Nat)
    (hn : 0 < cfg.num_bucket_shards) :
    (generate_buckets E cfg sig).length = cfg.num_bands ∧
    (∀ i, i < cfg.num_bands →
      (generate_buckets E cfg sig).getD i 0 =
        (E.hash64 ((sig.drop (i * cfg.length_band)).take cfg.length_band)
          RANDOM_SEED).1) ∧
    (∀ (items : List (Nat × List Nat))
      (mins : List (Nat × Nat × List Nat)) (j : Nat),
      j < cfg.num_bucket_shards →
      ∀ p, (p ∈ ((submit_buckets_minhashes cfg items mins).1).getD j [] ↔
        p ∈ items ∧ p.1 % cfg.num_bucket_shards = j)) ∧
    (∀ (isJa : Bool) (row : Row),
      (preProcessRow E cfg isJa row).1.length ≤ cfg.num_bands) := by
  refine ⟨generate_buckets_length E cfg sig, ?_, ?_, ?_⟩
  · intro i hi
    unfold generate_buckets
    rw [List.getD_eq_getElem?_getD, List.getElem?_map,
      List.getElem?_range hi]
    rfl
  · intro items mins j hj p
    exact mem_partitionBy cfg.num_bucket_shards _ items j hn hj p
  · intro isJa row
    unfold preProcessRow
    by_cases hsh : (generate_word_shingles E cfg.word_shingle_size
        cfg.delimiter isJa (E.normalize_string row.contents)).1.length > 0
    · simp [hsh, generate_buckets_length]
    · simp [hsh]

/-- Witness for `band_keys_spec`: one bucket shard, a two-band
configuration, and a concrete external hash. -/
theorem band_keys_spec_witness :
    (generate_buckets extW cfgW [10, 20, 30, 40]).length = cfgW.num_bands :=
  (band_keys_spec extW cfgW [10, 20, 30, 40] (by decide)).1

/-- C7: for each collector family the sender partitions its batch by
`key mod N` before the RPC — bucket items by band key, minhash entries by
doc id, filter requests by doc id — and a record with key `k` appears in
the request list of shard `k mod N` and of no other shard. -/
theorem collector_sharding (cfg : PreConfig) (fcfg : FilterConfig)
    (docs : List DocState) (t : Table)
    (hb : 0 < cfg.num_bucket_shards) (hm : 0 < cfg.num_minhash_shards)
    (hd : 0 < docs.length)
    (hv : validate_columns t [fcfg.doc_column, fcfg.doc_id_column] = true) :
    (∀ (items : List (Nat × List Nat)) (mins : List (Nat × Nat × List Nat)),
      (∀ j, j < cfg.num_bucket_shards →
        ∀ p, p ∈ ((submit_buckets_minhashes cfg items mins).1).getD j [] ↔
          p ∈ items ∧ p.1 % cfg.num_bucket_shards = j) ∧
      (∀ j, j < cfg.num_minhash_shards →
        ∀ e, e ∈ ((submit_buckets_minhashes cfg items mins).2).getD j [] ↔
          e ∈ mins ∧ e.1 % cfg.num_minhash_shards = j)) ∧
    (∀ j, j < docs.length →
      ∀ i, i ∈ (fdedupFilter fcfg docs t).requests.getD j [] ↔
        i ∈ t.rows.map (fun r => r.doc_id) ∧ i % docs.length = j) := by
  constructor
  · intro items mins
    constructor
    · intro j hj p
      exact mem_partitionBy cfg.num_bucket_shards _ items j hb hj p
    · intro j hj e
      exact mem_partitionBy cfg.num_minhash_shards _ mins j hm hj e
  · intro j hj i
    have hreq : (fdedupFilter fcfg docs t).requests =
        partitionBy docs.length (fun i => i)
          (t.rows.map fun r => r.doc_id) := by
      unfold fdedupFilter
      rw [hv]
      simp
    rw [hreq]
    exact mem_partitionBy docs.length _ _ j hd hj i

/-- Witness for `collector_sharding`: one shard per family, a one-row
valid table, and the concrete key `1`. -/
theorem collector_sharding_witness :
    1 ∈ (fdedupFilter fcfgW [emptyDoc] tableW).requests.getD 0 [] ↔
      1 ∈ tableW.rows.map (fun r => r.doc_id) ∧ 1 % [emptyDoc].length = 0 :=
  (collector_sharding cfgW fcfgW [emptyDoc] tableW (by decide) (by decide)
    (by decide) (by decide)).2 0 (by decide) 1

theorem phase1_fold_shift (E : Ext) (cfg : PreConfig) (tables : List Table)
    (acc : Phase1Acc) :
    tables.foldl (phase1Step E cfg) acc =
      (acc.1 ++ (phase1From E cfg acc.2.2.1 tables).1,
       acc.2.1 ++ (phase1From E cfg acc.2.2.1 tables).2.1,
       (phase1From E cfg acc.2.2.1 tables).2.2.1,
       acc.2.2.2 + (phase1From E cfg acc.2.2.1 tables).2.2.2) := by
  induction tables generalizing acc with
  | nil => simp [phase1From]
  | cons t ts ih =>
      rw [List.foldl_cons,
        show phase1From E cfg acc.2.2.1 (t :: ts) =
          ts.foldl (phase1Step E cfg)
            (phase1Step E cfg ([], [], acc.2.2.1, 0) t) from rfl,
        ih, ih]
      simp [phase1Step, List.append_assoc, Nat.add_assoc]

/-- C9: a table lacking a required column is skipped by both transforms —
the preprocessor returns no output tables and submits nothing, the filter
returns no rows, empty statistics and sends no collector requests — a
warning is recorded for it, and the pipeline continues over the remaining
tables exactly as if the bad table were absent (apart from the warning
count, which grows by one). -/
theorem missing_column_skips_table (E : Ext) (cfg : PreConfig)
    (fcfg : FilterConfig) (docs : List DocState) (t : Table) (isJa : Bool)
    (hv : validate_columns t [cfg.doc_column, cfg.doc_id_column] = false)
    (hv2 : validate_columns t [fcfg.doc_column, fcfg.doc_id_column] = false)
    (ts1 ts2 : List Table) :
    preTransform E cfg isJa t = ([], [], isJa) ∧
    fdedupFilter fcfg docs t = ⟨[], [], none, []⟩ ∧
    (phase1 E cfg (ts1 ++ t :: ts2)).1 = (phase1 E cfg (ts1 ++ ts2)).1 ∧
    (phase1 E cfg (ts1 ++ t :: ts2)).2.1 =
      (phase1 E cfg (ts1 ++ ts2)).2.1 ∧
    (phase1 E cfg (ts1 ++ t :: ts2)).2.2.1 =
      (phase1 E cfg (ts1 ++ ts2)).2.2.1 ∧
    (phase1 E cfg (ts1 ++ t :: ts2)).2.2.2 =
      (phase1 E cfg (ts1 ++ ts2)).2.2.2 + 1 := by
  have hskip : ∀ fl, preTransform E cfg fl t = ([], [], fl) := by
    intro fl
    simp [preTransform, hv]
  have hfil : fdedupFilter fcfg docs t = ⟨[], [], none, []⟩ := by
    simp [fdedupFilter, hv2]
  have hstep : ∀ A : Phase1Acc, phase1Step E cfg A t =
      (A.1, A.2.1, A.2.2.1, A.2.2.2 + 1) := by
    intro A
    simp [phase1Step, hskip, hv]
  have hfold : ∀ A : Phase1Acc,
      ts2.foldl (phase1Step E cfg) (A.1, A.2.1, A.2.2.1, A.2.2.2 + 1) =
        ((ts2.foldl (phase1Step E cfg) A).1,
         (ts2.foldl (phase1Step E cfg) A).2.1,
         (ts2.foldl (phase1Step E cfg) A).2.2.1,
         (ts2.foldl (phase1Step E cfg) A).2.2.2 + 1) := by
    intro A
    rw [phase1_fold_shift, phase1_fold_shift]
    dsimp only
    simp only [Prod.mk.injEq, true_and, and_true]
    omega
  have hsplit1 : phase1 E cfg (ts1 ++ t :: ts2) =
      ts2.foldl (phase1Step E cfg)
        (phase1Step E cfg
          (ts1.foldl (phase1Step E cfg) ([], [], cfg.is_japanese, 0)) t) := by
    simp [phase1, List.foldl_append]
  have hsplit2 : phase1 E cfg (ts1 ++ ts2) =
      ts2.foldl (phase1Step E cfg)
        (ts1.foldl (phase1Step E cfg) ([], [], cfg.is_japanese, 0)) := by
    simp [phase1, List.foldl_append]
  rw [hsplit1, hsplit2,
    hstep (ts1.foldl (phase1Step E cfg) ([], [], cfg.is_japanese, 0)),
    hfold (ts1.foldl (phase1Step E cfg) ([], [], cfg.is_japanese, 0))]
  exact ⟨hskip isJa, hfil, rfl, rfl, rfl, rfl⟩

/-- Witness for `missing_column_skips_table`: a table whose schema lacks
the id column, between two valid tables. -/
theorem missing_column_skips_table_witness :
    preTransform extW cfgW false (Table.mk ["contents"] []) =
      ([], [], false) :=
  (missing_column_skips_table extW cfgW fcfgW [emptyDoc]
    (Table.mk ["contents"] []) false (by decide) (by decide)
    [tableW] [tableW]).1

/-- C8 counterexample: with the Japanese path enabled and the tokenizer
raising, the document yields the empty shingle list — not its nonempty
generic-path shingles — and the `is_japanese` flag is cleared, so the path
taken by later documents does change. -/
theorem ja_fallback_counterexample :
    (generate_word_shingles extW 1 ' ' true ['a', ' ', 'b']).1 = [] ∧
    generate_word_shingles_generic 1 ' ' ['a', ' ', 'b'] = [['a'], ['b']] ∧
    (generate_word_shingles extW 1 ' ' true ['a', ' ', 'b']).1 ≠
      generate_word_shingles_generic 1 ' ' ['a', ' ', 'b'] ∧
    (generate_word_shingles extW 1 ' ' true ['a', ' ', 'b']).2 = false := by
  decide

/-- C8 amended: when the tokenizer raises on a document the failure is
logged and that document yields the empty shingle list (so the
preprocessor submits nothing for it, see `empty_shingles_never_dropped`),
and the `is_japanese` flag is cleared permanently: every subsequent
document of that worker is shingled on the generic path. -/
theorem ja_fallback_amended (E : Ext) (w : Nat) (d : Char)
    (text : List Char)
    (hfail : E.tokenizer (E.text_normalize text) = none) :
    generate_word_shingles E w d true text = ([], false) ∧
    (∀ text₂, generate_word_shingles E w d false text₂ =
      (generate_word_shingles_generic w d text₂, false)) := by
  constructor
  · simp [generate_word_shingles, hfail]
  · intro text₂
    simp [generate_word_shingles]

/-- Witness for `ja_fallback_amended` with the concrete failing
tokenizer of `extW`. -/
theorem ja_fallback_amended_witness :
    generate_word_shingles extW 1 ' ' true ['a', ' ', 'b'] = ([], false) :=
  (ja_fallback_amended extW 1 ' ' ['a', ' ', 'b'] (by decide)).1

theorem lookup_none_append (l₁ l₂ : List (Nat × Nat)) (i : Nat)
    (h₁ : l₁.lookup i = none) (h₂ : l₂.lookup i = none) :
    (l₁ ++ l₂).lookup i = none := by
  induction l₁ with
  | nil => simpa using h₂
  | cons q l ih =>
      obtain ⟨k, v⟩ := q
      cases hq : (i == k) with
      | true =>
          exfalso
          simp only [List.lookup, hq] at h₁
          exact Option.noConfusion h₁
      | false =>
          simp only [List.lookup, hq] at h₁
          simp only [List.cons_append, List.lookup, hq]
          exact ih h₁

theorem lookup_eq_none_iff (l : List (Nat × Nat)) (i : Nat) :
    l.lookup i = none ↔ i ∉ l.map Prod.fst := by
  induction l with
  | nil => simp
  | cons q l ih =>
      obtain ⟨k, v⟩ := q
      cases hq : (i == k) with
      | true =>
          have hik : i = k := by simpa using hq
          simp [List.lookup, hq, hik]
      | false =>
          have hik : ¬i = k := by simpa using hq
          simp [List.lookup, hq, ih, hik]

theorem add_cluster_untouched (st : DocState) (p : Nat × Nat) (i : Nat)
    (hne : p.1 ≠ i) (h1 : st.ids.lookup i = none) (h2 : i ∉ st.removed) :
    (add_cluster st p).ids.lookup i = none ∧
      i ∉ (add_cluster st p).removed := by
  unfold add_cluster
  by_cases hr : p.1 ∈ st.removed
  · simp only [if_pos hr]
    exact ⟨h1, h2⟩
  · simp only [if_neg hr]
    cases hl : st.ids.lookup p.1 with
    | none =>
        refine ⟨?_, h2⟩
        apply lookup_none_append _ _ _ h1
        obtain ⟨k, v⟩ := p
        simp only at hne
        cases hq : (i == k) with
        | true =>
            exact absurd (by simpa using hq : i = k)
              (fun h => hne h.symm)
        | false => simp [List.lookup, hq]
    | some c =>
        by_cases hc : c = p.2
        · simp only [if_pos hc]
          exact ⟨h1, h2⟩
        · simp only [if_neg hc]
          refine ⟨?_, h2⟩
          have hkeys : ((st.ids.map fun q =>
              if q.2 = max c p.2 then (q.1, min c p.2) else q).map
              Prod.fst) = st.ids.map Prod.fst := by
            rw [List.map_map]
            apply List.map_congr_left
            intro q _
            by_cases hq2 : q.2 = max c p.2 <;> simp [hq2]
          rw [lookup_eq_none_iff, hkeys, ← lookup_eq_none_iff]
          exact h1

theorem add_removed_untouched (st : DocState) (d i : Nat) (hne : d ≠ i)
    (h1 : st.ids.lookup i = none) (h2 : i ∉ st.removed) :
    (add_removed st d).ids.lookup i = none ∧
      i ∉ (add_removed st d).removed := by
  unfold add_removed
  constructor
  · rw [lookup_eq_none_iff] at h1 ⊢
    intro hmem
    exact h1 (((List.eraseP_sublist st.ids).map Prod.fst).subset hmem)
  · by_cases hd : d ∈ st.removed
    · simpa [hd] using h2
    · simp only [hd, if_neg, ite_false, List.mem_append,
        List.mem_singleton]
      intro hcon
      rcases hcon with hcon | hcon
      · exact h2 hcon
      · exact hne hcon.symm

theorem foldl_add_cluster_untouched (ps : List (Nat × Nat)) (st : DocState)
    (i : Nat) (hne : ∀ p ∈ ps, p.1 ≠ i) (h1 : st.ids.lookup i = none)
    (h2 : i ∉ st.removed) :
    (ps.foldl add_cluster st).ids.lookup i = none ∧
      i ∉ (ps.foldl add_cluster st).removed := by
  induction ps generalizing st with
  | nil => exact ⟨h1, h2⟩
  | cons p ps ih =>
      have h := add_cluster_untouched st p i (hne p (by simp)) h1 h2
      exact ih _ (fun q hq => hne q (List.mem_cons_of_mem _ hq)) h.1 h.2

theorem foldl_add_removed_untouched (ds : List Nat) (st : DocState)
    (i : Nat) (hne : ∀ d ∈ ds, d ≠ i) (h1 : st.ids.lookup i = none)
    (h2 : i ∉ st.removed) :
    (ds.foldl add_removed st).ids.lookup i = none ∧
      i ∉ (ds.foldl add_removed st).removed := by
  induction ds generalizing st with
  | nil => exact ⟨h1, h2⟩
  | cons d ds ih =>
      have h := add_removed_untouched st d i (hne d (by simp)) h1 h2
      exact ih _ (fun q hq => hne q (List.mem_cons_of_mem _ hq)) h.1 h.2

theorem mem_insertSorted (le : Nat → Nat → Bool) (a x : Nat)
    (l : List Nat) : x ∈ insertSorted le a l ↔ x = a ∨ x ∈ l := by
  induction l with
  | nil => simp [insertSorted]
  | cons b bs ih =>
      by_cases hab : le a b
      · simp [insertSorted, hab]
      · simp [insertSorted, hab, ih]
        tauto

theorem mem_sortDocs (le : Nat → Nat → Bool) (l : List Nat) (x : Nat) :
    x ∈ sortDocs le l ↔ x ∈ l := by
  induction l with
  | nil => simp [sortDocs]
  | cons a as ih =>
      simp only [sortDocs, List.foldr_cons]
      rw [mem_insertSorted]
      simp only [sortDocs] at ih
      rw [ih]
      simp

theorem resolveBucket_sub (fetch : Nat → Nat × List Nat) (θP : ℚ)
    (ids0 : List Nat) :
    (∀ p ∈ (resolveBucket fetch θP ids0).1, p.1 ∈ ids0) ∧
    (∀ d ∈ (resolveBucket fetch θP ids0).2, d ∈ ids0) := by
  unfold resolveBucket
  by_cases hlen : ids0.dedup.length < 2
  · simp [hlen]
  · simp only [if_neg hlen]
    cases hs : sortDocs (docBefore fetch) ids0.dedup with
    | nil => simp
    | cons rep others =>
        have hmem : ∀ x, x ∈ rep :: others → x ∈ ids0 := by
          intro x hx
          rw [← hs, mem_sortDocs, List.mem_dedup] at hx
          exact hx
        have key : ∀ (os : List Nat) (acc : Nat × List (Nat × Nat) × List Nat),
            (∀ x ∈ os, x ∈ ids0) → acc.1 ∈ ids0 →
            (∀ p ∈ acc.2.1, p.1 ∈ ids0) → (∀ d ∈ acc.2.2, d ∈ ids0) →
            (∀ p ∈ (os.foldl (fun acc dcc =>
              if θP ≤ (matchCount (fetch acc.1).2 (fetch dcc).2 : ℚ) then
                (acc.1, acc.2.1 ++ [(dcc, acc.1)], acc.2.2 ++ [dcc])
              else (dcc, acc.2.1 ++ [(dcc, dcc)], acc.2.2)) acc).2.1,
                p.1 ∈ ids0) ∧
            (∀ d ∈ (os.foldl (fun acc dcc =>
              if θP ≤ (matchCount (fetch acc.1).2 (fetch dcc).2 : ℚ) then
                (acc.1, acc.2.1 ++ [(dcc, acc.1)], acc.2.2 ++ [dcc])
              else (dcc, acc.2.1 ++ [(dcc, dcc)], acc.2.2)) acc).2.2,
                d ∈ ids0) := by
          intro os
          induction os with
          | nil =>
              intro acc _ _ hasg hrem
              exact ⟨hasg, hrem⟩
          | cons o os ih =>
              intro acc hos hcur hasg hrem
              have ho : o ∈ ids0 := hos o (by simp)
              have hos' : ∀ x ∈ os, x ∈ ids0 :=
                fun x hx => hos x (List.mem_cons_of_mem _ hx)
              by_cases hm : θP ≤ (matchCount (fetch acc.1).2 (fetch o).2 : ℚ)
              · rw [List.foldl_cons, if_pos hm]
                refine ih _ hos' hcur ?_ ?_
                · intro p hp
                  rcases List.mem_append.mp hp with hp | hp
                  · exact hasg p hp
                  · rw [List.mem_singleton] at hp
                    rw [hp]
                    exact ho
                · intro d hd
                  rcases List.mem_append.mp hd with hd | hd
                  · exact hrem d hd
                  · rw [List.mem_singleton] at hd
                    rw [hd]
                    exact ho
              · rw [List.foldl_cons, if_neg hm]
                refine ih _ hos' ho ?_ hrem
                intro p hp
                rcases List.mem_append.mp hp with hp | hp
                · exact hasg p hp
                · rw [List.mem_singleton] at hp
                  rw [hp]
                  exact ho
        exact key others (rep, [(rep, rep)], [])
          (fun x hx => hmem x (List.mem_cons_of_mem _ hx))
          (hmem rep (by simp))
          (by
            intro p hp
            rw [List.mem_singleton] at hp
            rw [hp]
            exact hmem rep (by simp))
          (by simp)

theorem foldl_addPair_vals (pairs : List (Nat × Nat))
    (acc : List (Nat × List Nat)) (i : Nat)
    (hacc : ∀ b ∈ acc, i ∉ b.2) (hp : ∀ p ∈ pairs, p.2 ≠ i) :
    ∀ b ∈ pairs.foldl addPair acc, i ∉ b.2 := by
  induction pairs generalizing acc with
  | nil => exact hacc
  | cons p ps ih =>
      refine ih _ ?_ (fun q hq => hp q (List.mem_cons_of_mem _ hq))
      intro b hb
      unfold addPair at hb
      by_cases hl : (acc.lookup p.1).isSome
      · rw [if_pos hl] at hb
        rcases List.mem_map.mp hb with ⟨b0, hb0, hbe⟩
        by_cases hk : b0.1 = p.1
        · rw [if_pos hk] at hbe
          rw [← hbe]
          intro hcon
          rcases List.mem_append.mp hcon with hcon | hcon
          · exact hacc b0 hb0 hcon
          · rw [List.mem_singleton] at hcon
            exact hp p (by simp) hcon.symm
        · rw [if_neg hk] at hbe
          rw [← hbe]
          exact hacc b0 hb0
      · rw [if_neg hl] at hb
        rcases List.mem_append.mp hb with hb | hb
        · exact hacc b hb
        · rw [List.mem_singleton] at hb
          rw [hb]
          intro hcon
          rw [List.mem_singleton] at hcon
          exact hp p (by simp) hcon.symm

theorem phase2_untouched (θP : ℚ) (pairs : List (Nat × Nat))
    (entries : List (Nat × Nat × List Nat)) (i : Nat)
    (hi : ∀ p ∈ pairs, p.2 ≠ i) :
    (phase2 θP pairs entries).ids.lookup i = none ∧
      i ∉ (phase2 θP pairs entries).removed := by
  unfold phase2
  have hbuck : ∀ b ∈ bucketsDict pairs, i ∉ b.2 :=
    foldl_addPair_vals pairs [] i (by simp) hi
  have key : ∀ (bs : List (Nat × List Nat)) (st : DocState),
      (∀ b ∈ bs, i ∉ b.2) → st.ids.lookup i = none → i ∉ st.removed →
      ((bs.foldl (fun st bucket =>
          (resolveBucket (minhashLookup entries) θP bucket.2).2.foldl
            add_removed
            ((resolveBucket (minhashLookup entries) θP bucket.2).1.foldl
              add_cluster st)) st).ids.lookup i = none ∧
        i ∉ (bs.foldl (fun st bucket =>
          (resolveBucket (minhashLookup entries) θP bucket.2).2.foldl
            add_removed
            ((resolveBucket (minhashLookup entries) θP bucket.2).1.foldl
              add_cluster st)) st).removed) := by
    intro bs
    induction bs with
    | nil => intro st _ h1 h2; exact ⟨h1, h2⟩
    | cons b bs ih =>
        intro st hbs h1 h2
        have hsub := resolveBucket_sub (minhashLookup entries) θP b.2
        have hbv : i ∉ b.2 := hbs b (by simp)
        have hc := foldl_add_cluster_untouched _ st i
          (fun p hp hcon => hbv (hcon ▸ hsub.1 p hp)) h1 h2
        have hr := foldl_add_removed_untouched _ _ i
          (fun d hd hcon => hbv (hcon ▸ hsub.2 d hd)) hc.1 hc.2
        exact ih _ (fun b hb => hbs b (List.mem_cons_of_mem _ hb)) hr.1 hr.2
  exact key (bucketsDict pairs) emptyDoc hbuck (by rfl) (by simp [emptyDoc])

theorem docFilter_singleton (st : DocState) (i : Nat)
    (h1 : st.ids.lookup i = none) (h2 : i ∉ st.removed) :
    docFilter st [i] = [(i, i)] := by
  simp [docFilter, h2, h1]

/-- C1 counterexample: on the generic path (the path taken for empty text
whenever the Japanese flag is off, and with the source default shingle
size 5 and blank delimiter) the empty text yields the one-element shingle
list containing the empty shingle — not the empty list. -/
theorem empty_text_shingles_counterexample :
    generate_word_shingles_generic 5 ' ' [] = [[]] ∧
    generate_word_shingles_generic 5 ' ' [] ≠ [] := by
  decide

/-- C1 amended: the shingler maps the empty text to the singleton list
containing the empty shingle, so an empty document is minhashed and
bucketed like any other; it is a document whose computed shingle list is
empty (possible only on a Japanese tokenizer failure) that is submitted to
no collector — never compared — never enters the cluster map or the
removed set in phase 2, and is returned by the doc-collector `filter` as
its own singleton cluster: it is never dropped from the output. -/
theorem empty_shingles_never_dropped (E : Ext) (cfg : PreConfig) (θP : ℚ)
    (entries : List (Nat × Nat × List Nat)) (w : Nat) (d : Char)
    (hw : 1 ≤ w) :
    generate_word_shingles_generic w d [] = [[]] ∧
    (∀ isJa row,
      (generate_word_shingles E cfg.word_shingle_size cfg.delimiter isJa
        (E.normalize_string row.contents)).1 = [] →
      preProcessRow E cfg isJa row =
        ([], [],
          (generate_word_shingles E cfg.word_shingle_size cfg.delimiter isJa
            (E.normalize_string row.contents)).2)) ∧
    (∀ (pairs : List (Nat × Nat)) (i : Nat), (∀ p ∈ pairs, p.2 ≠ i) →
      (phase2 θP pairs entries).ids.lookup i = none ∧
      i ∉ (phase2 θP pairs entries).removed ∧
      docFilter (phase2 θP pairs entries) [i] = [(i, i)]) := by
  refine ⟨?_, ?_, ?_⟩
  · unfold generate_word_shingles_generic
    rw [show find [] d = [] from rfl]
    simp [hw]
  · intro isJa row hsh
    unfold preProcessRow
    dsimp only
    rw [hsh]
    simp
  · intro pairs i hi
    have h := phase2_untouched θP pairs entries i hi
    exact ⟨h.1, h.2, docFilter_singleton _ i h.1 h.2⟩

/-- Witness for `empty_shingles_never_dropped` at the source default
`w = 5`, one submitted pair for another document, and doc id 7. -/
theorem empty_shingles_never_dropped_witness :
    docFilter (phase2 (4 : ℚ) [(3, 2)] []) [7] = [(7, 7)] :=
  ((empty_shingles_never_dropped extW cfgW 4 [] 5 ' '
    (by decide)).2.2 [(3, 2)] 7 (by decide)).2.2

theorem lookup_eraseKey_ne (l : List (Nat × Nat)) (k k' : Nat)
    (h : k' ≠ k) : (eraseKey k l).lookup k' = l.lookup k' := by
  induction l with
  | nil => rfl
  | cons q l ih =>
      obtain ⟨a, b⟩ := q
      show ((((a, b) :: l).eraseP fun p => p.1 == k).lookup k') = _
      rw [List.eraseP_cons]
      by_cases hak : a = k
      · have h1 : ((a, b).1 == k) = true := by simp [hak]
        rw [h1]
        simp only [cond_true]
        have h2 : (k' == a) = false := by
          simp only [beq_eq_false_iff_ne, ne_eq]
          rw [hak]
          exact h
        simp [List.lookup, h2]
      · have h1 : ((a, b).1 == k) = false := by simp [hak]
        rw [h1]
        simp only [cond_false]
        cases hq : (k' == a) with
        | true => simp [List.lookup, hq]
        | false =>
            simp only [List.lookup, hq]
            exact ih

theorem filterLoop_spec (unique : List (Nat × Nat)) (rows : List Row)
    (hnd : (rows.map fun r => r.doc_id).Nodup) :
    (filterLoop unique rows).1 =
      rows.map (fun r => (unique.lookup r.doc_id).isSome) ∧
    (filterLoop unique rows).2.1 =
      (rows.filter fun r => (unique.lookup r.doc_id).isSome).map
        (fun r => (unique.lookup r.doc_id).getD 0) := by
  induction rows generalizing unique with
  | nil => simp [filterLoop]
  | cons r rest ih =>
      rw [List.map_cons, List.nodup_cons] at hnd
      have hnd' : (rest.map fun r => r.doc_id).Nodup := hnd.2
      have hne : ∀ r' ∈ rest, r'.doc_id ≠ r.doc_id := by
        intro r' hr' hcon
        exact hnd.1 (by rw [← hcon]; exact List.mem_map_of_mem _ hr')
      cases hl : unique.lookup r.doc_id with
      | some c =>
          have heq : ∀ r' ∈ rest,
              (eraseKey r.doc_id unique).lookup r'.doc_id =
                unique.lookup r'.doc_id :=
            fun r' hr' =>
              lookup_eraseKey_ne unique r.doc_id r'.doc_id (hne r' hr')
          have hih := ih (eraseKey r.doc_id unique) hnd'
          simp only [filterLoop, hl]
          constructor
          · simp only [List.map_cons, hl, Option.isSome_some]
            congr 1
            rw [hih.1]
            exact List.map_congr_left fun r' hr' => by rw [heq r' hr']
          · rw [List.filter_cons_of_pos (by simp [hl])]
            simp only [List.map_cons, hl]
            congr 1
            rw [hih.2]
            rw [List.filter_congr
              (fun r' hr' => by rw [heq r' hr'] :
                ∀ r' ∈ rest,
                  ((eraseKey r.doc_id unique).lookup r'.doc_id).isSome =
                    (unique.lookup r'.doc_id).isSome)]
            apply List.map_congr_left
            intro r' hr'
            rw [heq r' (List.mem_of_mem_filter hr')]
      | none =>
          have hih := ih unique hnd'
          simp only [filterLoop, hl]
          constructor
          · simp only [List.map_cons, hl, Option.isSome_none]
            congr 1
            exact hih.1
          · rw [List.filter_cons_of_neg (by simp [hl])]
            exact hih.2

theorem applyMask_map (rows : List Row) (pred : Row → Bool) :
    applyMask rows (rows.map pred) = rows.filter pred := by
  induction rows with
  | nil => rfl
  | cons r rs ih =>
      simp only [List.map_cons, applyMask, List.filter_cons]
      by_cases hp : pred r <;> simp [hp, ih]

theorem lookup_isSome_iff (l : List (Nat × Nat)) (i : Nat) :
    (l.lookup i).isSome = true ↔ i ∈ l.map Prod.fst := by
  rw [← Option.ne_none_iff_isSome, ne_eq, lookup_eq_none_iff, not_not]

theorem docFilter_keys (st : DocState) (req : List Nat) :
    (docFilter st req).map Prod.fst =
      req.filter fun i => decide (i ∉ st.removed) := by
  induction req with
  | nil => rfl
  | cons i is ih =>
      by_cases hi : i ∈ st.removed <;>
        simp [docFilter, List.filterMap_cons, hi] <;>
        simpa [docFilter] using ih

theorem mem_survivorMap_keys (docs : List DocState) (ids : List Nat)
    (i : Nat) (hd : 0 < docs.length) :
    i ∈ (survivorMap docs ids).map Prod.fst ↔
      i ∈ ids ∧ i ∉ (docs.getD (i % docs.length) emptyDoc).removed := by
  constructor
  · intro hmem
    rcases List.mem_map.mp hmem with ⟨p, hp, hpi⟩
    rcases List.mem_flatten.mp hp with ⟨rep, hrep, hprep⟩
    rcases List.mem_map.mp hrep with ⟨j, hj, hrepj⟩
    have hjlt : j < docs.length := List.mem_range.mp hj
    have hkey : i ∈ rep.map Prod.fst :=
      hpi ▸ List.mem_map_of_mem _ hprep
    rw [← hrepj, docFilter_keys] at hkey
    have hmm := List.mem_filter.mp hkey
    have hreqm := (mem_partitionBy docs.length _ ids j hd hjlt i).mp hmm.1
    obtain ⟨hids, hmod⟩ := hreqm
    refine ⟨hids, ?_⟩
    rw [hmod]
    simpa using hmm.2
  · rintro ⟨hids, hrem⟩
    have hjlt : i % docs.length < docs.length := Nat.mod_lt _ hd
    apply List.mem_map.mpr
    refine ⟨(i, ((docs.getD (i % docs.length) emptyDoc).ids.lookup i).getD i),
      ?_, rfl⟩
    apply List.mem_flatten.mpr
    refine ⟨docFilter (docs.getD (i % docs.length) emptyDoc)
      ((partitionBy docs.length (fun x => x) ids).getD (i % docs.length) []),
      List.mem_map.mpr ⟨i % docs.length,
        List.mem_range.mpr hjlt, rfl⟩, ?_⟩
    apply List.mem_filterMap.mpr
    refine ⟨i, ?_, ?_⟩
    · exact (mem_partitionBy docs.length _ ids (i % docs.length) hd hjlt
        i).mpr ⟨hids, rfl⟩
    · have hrem' := hrem
      rw [List.getD_eq_getElem?_getD] at hrem'
      simp [hrem']

/-- C4: for a valid table whose doc ids are distinct (ids are assigned
uniquely upstream), a row is kept iff its doc id is a key of the survivor
map unioned from the doc-collector filter replies (equivalently: it was
queried and its shard has not removed it); the kept rows are the in-order
filter of the input rows, so all other columns and the original order
among survivors are preserved; the cluster column is parallel to the kept
rows; the reported statistics are `(source, result)` row counts with
`result_documents ≤ source_documents`. -/
theorem filter_transform_spec (fcfg : FilterConfig) (docs : List DocState)
    (t : Table) (hd : 0 < docs.length)
    (hv : validate_columns t [fcfg.doc_column, fcfg.doc_id_column] = true)
    (hnd : (t.rows.map fun r => r.doc_id).Nodup) :
    (fdedupFilter fcfg docs t).rows =
      t.rows.filter (fun r =>
        ((survivorMap docs (t.rows.map fun r => r.doc_id)).lookup
          r.doc_id).isSome) ∧
    (fdedupFilter fcfg docs t).clusters =
      (fdedupFilter fcfg docs t).rows.map (fun r =>
        ((survivorMap docs (t.rows.map fun r => r.doc_id)).lookup
          r.doc_id).getD 0) ∧
    (∀ i, ((survivorMap docs (t.rows.map fun r => r.doc_id)).lookup
        i).isSome = true ↔
      (i ∈ t.rows.map fun r => r.doc_id) ∧
        i ∉ (docs.getD (i % docs.length) emptyDoc).removed) ∧
    (fdedupFilter fcfg docs t).stats =
      some (t.rows.length, (fdedupFilter fcfg docs t).rows.length) ∧
    (fdedupFilter fcfg docs t).rows.length ≤ t.rows.length := by
  have hloop := filterLoop_spec
    (survivorMap docs (t.rows.map fun r => r.doc_id)) t.rows hnd
  have hbody : fdedupFilter fcfg docs t =
      ⟨applyMask t.rows
        (filterLoop (survivorMap docs (t.rows.map fun r => r.doc_id))
          t.rows).1,
       (filterLoop (survivorMap docs (t.rows.map fun r => r.doc_id))
          t.rows).2.1,
       some (t.rows.length,
        (applyMask t.rows
          (filterLoop (survivorMap docs (t.rows.map fun r => r.doc_id))
            t.rows).1).length),
       partitionBy docs.length (fun i => i)
        (t.rows.map fun r => r.doc_id)⟩ := by
    unfold fdedupFilter
    rw [hv]
    rfl
  have hrows : (fdedupFilter fcfg docs t).rows =
      t.rows.filter (fun r =>
        ((survivorMap docs (t.rows.map fun r => r.doc_id)).lookup
          r.doc_id).isSome) := by
    rw [hbody]
    dsimp only
    rw [hloop.1, applyMask_map]
  refine ⟨hrows, ?_, ?_, ?_, ?_⟩
  · rw [hbody]
    dsimp only
    rw [hloop.2, hloop.1, applyMask_map]
  · intro i
    rw [lookup_isSome_iff]
    exact mem_survivorMap_keys docs _ i hd
  · rw [hbody]
  · rw [hrows]
    exact List.length_filter_le _ _

/-- Witness for `filter_transform_spec`: one shard that kept doc 1 with
cluster 1, a one-row valid table. -/
theorem filter_transform_spec_witness :
    (fdedupFilter fcfgW [DocState.mk [(1, 1)] []] tableW).rows.length ≤
      tableW.rows.length :=
  (filter_transform_spec fcfgW [DocState.mk [(1, 1)] []] tableW
    (by decide) (by decide) (by decide)).2.2.2.2

theorem flatMap_map_comp {α β γ : Type} (l : List α) (g : α → β)
    (f : β → List γ) :
    (l.map g).flatMap f = l.flatMap fun x => f (g x) := by
  induction l with
  | nil => rfl
  | cons x xs ih => simp [ih]

theorem count_flatMap {α β : Type} [DecidableEq β] (g : α → List β)
    (l : List α) (b : β) :
    (l.flatMap g).count b = (l.map fun a => (g a).count b).sum := by
  induction l with
  | nil => rfl
  | cons x xs ih => simp [List.count_append, ih]

theorem sum_map_range_ite (W k c : Nat) :
    ((List.range W).map fun w => if k = w then c else 0).sum =
      if k < W then c else 0 := by
  induction W with
  | zero => simp
  | succ W ih =>
      rw [List.range_succ, List.map_append, List.sum_append, ih]
      by_cases hkW : k = W
      · subst hkW
        simp [Nat.lt_irrefl]
      · by_cases hk' : k < W
        · simp [hk', hkW, Nat.lt_succ_of_lt hk']
        · have hnot : ¬k < W + 1 := by omega
          simp [hk', hkW, hnot]

theorem range_flatMap_filter_perm {α : Type} [DecidableEq α] (W : Nat)
    (f : α → Nat) (l : List α) (h : ∀ x ∈ l, f x < W) :
    ((List.range W).flatMap fun w => l.filter fun x => f x == w).Perm l := by
  apply List.perm_iff_count.mpr
  intro a
  rw [count_flatMap]
  by_cases ha : a ∈ l
  · have hfa : f a < W := h a ha
    have hmapeq : ((List.range W).map fun w =>
          (l.filter fun x => f x == w).count a) =
        (List.range W).map fun w => if f a = w then l.count a else 0 := by
      apply List.map_congr_left
      intro w _
      by_cases hw : f a = w
      · rw [List.count_filter (by simp [hw]), if_pos hw]
      · rw [if_neg hw]
        apply List.count_eq_zero.mpr
        intro hm
        exact hw (by simpa using (List.mem_filter.mp hm).2)
    rw [hmapeq, sum_map_range_ite, if_pos hfa]
  · have hz : l.count a = 0 := List.count_eq_zero.mpr ha
    have hall : ((List.range W).map fun w =>
          (l.filter fun x => f x == w).count a) =
        (List.range W).map fun _ => 0 := by
      apply List.map_congr_left
      intro w _
      exact List.count_eq_zero.mpr fun hm => ha (List.mem_of_mem_filter hm)
    rw [hall, hz]
    simp

theorem mem_enum_fst_lt {α : Type} (l : List α) (x : Nat × α)
    (h : x ∈ l.enum) : x.1 < l.length := by
  by_contra hcon
  have hn : l[x.1]? = none := List.getElem?_eq_none (by omega)
  have hm := List.mem_enum_iff_getElem?.mp h
  rw [hn] at hm
  exact Option.noConfusion hm

theorem foldl_concat_pairs (rs : List Phase1Acc)
    (A : List (Nat × Nat)) (B : List (Nat × Nat × List Nat)) :
    rs.foldl (fun acc r => (acc.1 ++ r.1, acc.2 ++ r.2.1)) (A, B) =
      (A ++ (rs.map fun r => r.1).flatten,
       B ++ (rs.map fun r => r.2.1).flatten) := by
  induction rs generalizing A B with
  | nil => simp
  | cons r rs ih => simp [ih]

theorem shingles_flag_pres (E : Ext) (w : Nat) (d : Char) (b : Bool)
    (hst : b = false ∨ ∀ text, E.tokenizer (E.text_normalize text) ≠ none)
    (text : List Char) :
    (generate_word_shingles E w d b text).2 = b := by
  cases b with
  | false => simp [generate_word_shingles]
  | true =>
      rcases hst with hst | hst
      · exact Bool.noConfusion hst
      · unfold generate_word_shingles
        rw [if_pos rfl]
        cases htok : E.tokenizer (E.text_normalize text) with
        | some ws => simp
        | none => exact absurd htok (hst text)

theorem preProcessRow_flag_pres (E : Ext) (cfg : PreConfig) (b : Bool)
    (row : Row)
    (H : ∀ text, (generate_word_shingles E cfg.word_shingle_size
      cfg.delimiter b text).2 = b) :
    (preProcessRow E cfg b row).2.2 = b := by
  unfold preProcessRow
  dsimp only
  split <;> exact H _

theorem preTransform_flag_pres (E : Ext) (cfg : PreConfig) (b : Bool)
    (t : Table)
    (H : ∀ text, (generate_word_shingles E cfg.word_shingle_size
      cfg.delimiter b text).2 = b) :
    (preTransform E cfg b t).2.2 = b := by
  unfold preTransform
  by_cases hv : validate_columns t [cfg.doc_column, cfg.doc_id_column] = false
  · simp [hv]
  · simp only [if_neg hv]
    have key : ∀ (rows : List Row)
        (acc : List (Nat × Nat) × List (Nat × Nat × List Nat) × Bool),
        acc.2.2 = b →
        ((rows.foldl (fun acc row =>
          let st := preProcessRow E cfg acc.2.2 row
          (acc.1 ++ st.1, acc.2.1 ++ st.2.1, st.2.2)) acc)).2.2 = b := by
      intro rows
      induction rows with
      | nil => exact fun acc h => h
      | cons r rs ih =>
          intro acc h
          rw [List.foldl_cons]
          apply ih
          dsimp only
          rw [h]
          exact preProcessRow_flag_pres E cfg b r H
    exact key t.rows ([], [], b) rfl

theorem phase1_flatMap_stateless (E : Ext) (cfg : PreConfig) (b : Bool)
    (hb : cfg.is_japanese = b)
    (H : ∀ text, (generate_word_shingles E cfg.word_shingle_size
      cfg.delimiter b text).2 = b)
    (tables : List Table) :
    (phase1 E cfg tables).1 =
      tables.flatMap (fun t => (preTransform E cfg b t).1) ∧
    (phase1 E cfg tables).2.1 =
      tables.flatMap (fun t => (preTransform E cfg b t).2.1) := by
  have key : ∀ (ts : List Table) (acc : Phase1Acc), acc.2.2.1 = b →
      (ts.foldl (phase1Step E cfg) acc).1 =
        acc.1 ++ ts.flatMap (fun t => (preTransform E cfg b t).1) ∧
      (ts.foldl (phase1Step E cfg) acc).2.1 =
        acc.2.1 ++ ts.flatMap (fun t => (preTransform E cfg b t).2.1) := by
    intro ts
    induction ts with
    | nil =>
        intro acc _
        simp
    | cons t ts ih =>
        intro acc h
        rw [List.foldl_cons]
        have hflag : (phase1Step E cfg acc t).2.2.1 = b := by
          simp only [phase1Step]
          rw [h]
          exact preTransform_flag_pres E cfg b t H
        obtain ⟨ih1, ih2⟩ := ih (phase1Step E cfg acc t) hflag
        constructor
        · rw [ih1]
          simp only [phase1Step]
          rw [h, List.flatMap_cons, List.append_assoc]
        · rw [ih2]
          simp only [phase1Step]
          rw [h, List.flatMap_cons, List.append_assoc]
  have h0 := key tables ([], [], cfg.is_japanese, 0) (by simpa using hb)
  unfold phase1
  simpa using h0

theorem phase1Assigned_perm_flatMap (E : Ext) (p : RuntimeParams)
    (hst : p.is_japanese = false ∨
      ∀ text, E.tokenizer (E.text_normalize text) ≠ none)
    (W : Nat) (assign : Nat → Nat)
    (tables : List Table) (h : ∀ i, i < tables.length → assign i < W) :
    (phase1Assigned E p W assign tables).1.Perm
      (tables.flatMap fun t =>
        (preTransform E (buildWorker E p 0) p.is_japanese t).1) ∧
    (phase1Assigned E p W assign tables).2.Perm
      (tables.flatMap fun t =>
        (preTransform E (buildWorker E p 0) p.is_japanese t).2.1) := by
  have H0 : ∀ text, (generate_word_shingles E
      (buildWorker E p 0).word_shingle_size (buildWorker E p 0).delimiter
      p.is_japanese text).2 = p.is_japanese :=
    fun text => shingles_flag_pres E _ _ p.is_japanese hst text
  have hfun : (fun wkr => phase1 E (buildWorker E p wkr)
        (workerTables assign tables wkr)) =
      (fun wkr => phase1 E (buildWorker E p 0)
        (workerTables assign tables wkr)) := rfl
  have hpf1 : ∀ X, (phase1 E (buildWorker E p 0) X).1 =
      X.flatMap fun t =>
        (preTransform E (buildWorker E p 0) p.is_japanese t).1 :=
    fun X => (phase1_flatMap_stateless E _ p.is_japanese rfl H0 X).1
  have hpf2 : ∀ X, (phase1 E (buildWorker E p 0) X).2.1 =
      X.flatMap fun t =>
        (preTransform E (buildWorker E p 0) p.is_japanese t).2.1 :=
    fun X => (phase1_flatMap_stateless E _ p.is_japanese rfl H0 X).2
  have henum : ∀ x ∈ tables.enum, (fun it => assign it.1) x < W :=
    fun x hx => h x.1 (mem_enum_fst_lt tables x hx)
  have hperm := range_flatMap_filter_perm W (fun it => assign it.1)
    tables.enum henum
  have hchar : phase1Assigned E p W assign tables =
      ((List.range W).flatMap fun wkr =>
        (phase1 E (buildWorker E p 0) (workerTables assign tables wkr)).1,
       (List.range W).flatMap fun wkr =>
        (phase1 E (buildWorker E p 0)
          (workerTables assign tables wkr)).2.1) := by
    unfold phase1Assigned
    rw [hfun, foldl_concat_pairs]
    simp only [List.map_map, List.nil_append]
    rfl
  rw [hchar]
  constructor
  · dsimp only
    simp only [hpf1, workerTables, flatMap_map_comp]
    rw [← List.flatMap_assoc]
    have hfl := List.Perm.flatMap_right
      (fun it : Nat × Table =>
        (preTransform E (buildWorker E p 0) p.is_japanese it.2).1) hperm
    refine hfl.trans ?_
    rw [show (tables.enum.flatMap fun it =>
          (preTransform E (buildWorker E p 0) p.is_japanese it.2).1) =
        (tables.enum.map Prod.snd).flatMap
          (fun t =>
            (preTransform E (buildWorker E p 0) p.is_japanese t).1) from
      (flatMap_map_comp tables.enum Prod.snd
        (fun t =>
          (preTransform E (buildWorker E p 0) p.is_japanese t).1)).symm,
      List.enum_map_snd]
  · dsimp only
    simp only [hpf2, workerTables, flatMap_map_comp]
    rw [← List.flatMap_assoc]
    have hfl := List.Perm.flatMap_right
      (fun it : Nat × Table =>
        (preTransform E (buildWorker E p 0) p.is_japanese it.2).2.1) hperm
    refine hfl.trans ?_
    rw [show (tables.enum.flatMap fun it =>
          (preTransform E (buildWorker E p 0) p.is_japanese it.2).2.1) =
        (tables.enum.map Prod.snd).flatMap
          (fun t =>
            (preTransform E (buildWorker E p 0) p.is_japanese t).2.1) from
      (flatMap_map_comp tables.enum Prod.snd
        (fun t =>
          (preTransform E (buildWorker E p 0) p.is_japanese t).2.1)).symm,
      List.enum_map_snd]

theorem insertSorted_perm (le : Nat → Nat → Bool) (a : Nat) (l : List Nat) :
    (insertSorted le a l).Perm (a :: l) := by
  induction l with
  | nil => exact List.Perm.refl _
  | cons b bs ih =>
      by_cases h : le a b
      · rw [show insertSorted le a (b :: bs) = a :: b :: bs by
          simp [insertSorted, h]]
      · rw [show insertSorted le a (b :: bs) = b :: insertSorted le a bs by
          simp [insertSorted, h]]
        exact (ih.cons b).trans (List.Perm.swap a b bs)

theorem sortDocs_perm (le : Nat → Nat → Bool) (l : List Nat) :
    (sortDocs le l).Perm l := by
  induction l with
  | nil => exact List.Perm.refl _
  | cons a as ih =>
      rw [show sortDocs le (a :: as) = insertSorted le a (sortDocs le as)
        from rfl]
      exact (insertSorted_perm le a _).trans (ih.cons a)

theorem insertSorted_sorted (a : Nat) (l : List Nat)
    (h : l.Sorted (· ≤ ·)) :
    (insertSorted leb a l).Sorted (· ≤ ·) := by
  induction l with
  | nil => simp [insertSorted]
  | cons b bs ih =>
      rw [List.sorted_cons] at h
      by_cases hab : a ≤ b
      · rw [show insertSorted leb a (b :: bs) = a :: b :: bs by
          simp [insertSorted, leb, hab]]
        rw [List.sorted_cons]
        refine ⟨?_, List.sorted_cons.mpr h⟩
        intro x hx
        rcases List.mem_cons.mp hx with hx | hx
        · rw [hx]
          exact hab
        · exact hab.trans (h.1 x hx)
      · rw [show insertSorted leb a (b :: bs) = b :: insertSorted leb a bs by
          simp [insertSorted, leb, hab]]
        rw [List.sorted_cons]
        refine ⟨?_, ih h.2⟩
        intro x hx
        rcases (mem_insertSorted leb a x bs).mp hx with hx | hx
        · rw [hx]
          omega
        · exact h.1 x hx

theorem sortNat_sorted (l : List Nat) : (sortNat l).Sorted (· ≤ ·) := by
  unfold sortNat
  induction l with
  | nil => simp [sortDocs]
  | cons a as ih =>
      rw [show sortDocs leb (a :: as) = insertSorted leb a (sortDocs leb as)
        from rfl]
      exact insertSorted_sorted a _ ih

theorem sortNat_canon (l₁ l₂ : List Nat) (h : l₁.Perm l₂) :
    sortNat l₁ = sortNat l₂ :=
  List.eq_of_perm_of_sorted
    ((sortDocs_perm leb l₁).trans (h.trans (sortDocs_perm leb l₂).symm))
    (sortNat_sorted l₁) (sortNat_sorted l₂)

theorem bucketsCanon_perm (p₁ p₂ : List (Nat × Nat)) (h : p₁.Perm p₂) :
    bucketsCanon p₁ = bucketsCanon p₂ := by
  unfold bucketsCanon
  rw [sortNat_canon _ _ ((h.map fun p => p.1).dedup)]
  apply List.map_congr_left
  intro k _
  rw [sortNat_canon _ _
    (((h.filter fun p => p.1 == k).map fun p => p.2).dedup)]

theorem preProcessRow_entry_keys (E : Ext) (cfg : PreConfig) (b : Bool)
    (r : Row) :
    List.Sublist ((preProcessRow E cfg b r).2.1.map fun e => e.1)
      [r.doc_id] := by
  unfold preProcessRow
  dsimp only
  split
  · exact List.Sublist.refl _
  · exact List.nil_sublist _

theorem preTransform_entry_keys_sublist (E : Ext) (cfg : PreConfig)
    (b : Bool) (t : Table) :
    List.Sublist ((preTransform E cfg b t).2.1.map fun e => e.1)
      (t.rows.map fun r => r.doc_id) := by
  unfold preTransform
  by_cases hv : validate_columns t [cfg.doc_column, cfg.doc_id_column] = false
  · simp [hv]
  · simp only [if_neg hv]
    have key : ∀ (rows : List Row)
        (acc : List (Nat × Nat) × List (Nat × Nat × List Nat) × Bool),
        List.Sublist
          (((rows.foldl (fun acc row =>
            let st := preProcessRow E cfg acc.2.2 row
            (acc.1 ++ st.1, acc.2.1 ++ st.2.1, st.2.2)) acc)).2.1.map
              fun e => e.1)
          ((acc.2.1.map fun e => e.1) ++ rows.map fun r => r.doc_id) := by
      intro rows
      induction rows with
      | nil =>
          intro acc
          rw [List.foldl_nil, List.map_nil, List.append_nil]
      | cons r rs ih =>
          intro acc
          rw [List.foldl_cons]
          refine (ih _).trans ?_
          dsimp only
          rw [List.map_append, List.map_cons, List.append_assoc]
          refine List.Sublist.append (List.Sublist.refl _) ?_
          rw [show (r.doc_id :: rs.map fun r => r.doc_id) =
              [r.doc_id] ++ rs.map (fun r => r.doc_id) from rfl]
          exact List.Sublist.append (preProcessRow_entry_keys E cfg acc.2.2 r)
            (List.Sublist.refl _)
    have h0 := key t.rows ([], [], b)
    simpa using h0

theorem phase1_entry_keys_sublist (E : Ext) (cfg : PreConfig) (b : Bool)
    (tables : List Table) :
    List.Sublist ((tables.flatMap fun t => (preTransform E cfg b t).2.1).map
      fun e => e.1)
      (tables.flatMap fun t => t.rows.map fun r => r.doc_id) := by
  induction tables with
  | nil => exact List.Sublist.refl _
  | cons t ts ih =>
      rw [List.flatMap_cons, List.flatMap_cons, List.map_append]
      exact List.Sublist.append (preTransform_entry_keys_sublist E cfg b t) ih

theorem eq_of_mem_of_nodup_keys {β : Type} (l : List (Nat × β))
    (hnd : (l.map fun e => e.1).Nodup) (e₁ e₂ : Nat × β)
    (h₁ : e₁ ∈ l) (h₂ : e₂ ∈ l) (hk : e₁.1 = e₂.1) : e₁ = e₂ := by
  induction l with
  | nil => cases h₁
  | cons a l ih =>
      rw [List.map_cons, List.nodup_cons] at hnd
      rcases List.mem_cons.mp h₁ with h₁ | h₁ <;>
        rcases List.mem_cons.mp h₂ with h₂ | h₂
      · rw [h₁, h₂]
      · exfalso
        apply hnd.1
        rw [h₁] at hk
        rw [hk]
        exact List.mem_map_of_mem (fun e => e.1) h₂
      · exfalso
        apply hnd.1
        rw [h₂] at hk
        rw [← hk]
        exact List.mem_map_of_mem (fun e => e.1) h₁
      · exact ih hnd.2 h₁ h₂

theorem find?_key_perm {β : Type} (l₁ l₂ : List (Nat × β))
    (h : l₁.Perm l₂) (hnd : (l₁.map fun e => e.1).Nodup) (i : Nat) :
    l₁.find? (fun e => e.1 == i) = l₂.find? (fun e => e.1 == i) := by
  cases hf₁ : l₁.find? (fun e => e.1 == i) with
  | none =>
      have hnone := List.find?_eq_none.mp hf₁
      symm
      apply List.find?_eq_none.mpr
      intro x hx
      exact hnone x (h.symm.subset hx)
  | some e =>
      have hmem : e ∈ l₁ := List.mem_of_find?_eq_some hf₁
      have hkey := List.find?_some hf₁
      have hsome : (l₂.find? fun e => e.1 == i).isSome = true := by
        rw [List.find?_isSome]
        exact ⟨e, h.subset hmem, hkey⟩
      cases hf₂ : l₂.find? (fun e => e.1 == i) with
      | none =>
          rw [hf₂] at hsome
          simp at hsome
      | some e₂ =>
          have hmem₂ : e₂ ∈ l₁ :=
            h.symm.subset (List.mem_of_find?_eq_some hf₂)
          have hkey₂ := List.find?_some hf₂
          have he : e = e₂ := by
            apply eq_of_mem_of_nodup_keys l₁ hnd e e₂ hmem hmem₂
            have hk1 : e.1 = i := by simpa using hkey
            have hk2 : e₂.1 = i := by simpa using hkey₂
            rw [hk1, hk2]
          rw [he]

theorem minhashLookup_perm (l₁ l₂ : List (Nat × Nat × List Nat))
    (h : l₁.Perm l₂) (hnd : (l₁.map fun e => e.1).Nodup) :
    minhashLookup l₁ = minhashLookup l₂ := by
  funext i
  unfold minhashLookup
  rw [find?_key_perm l₁ l₂ h hnd i]

theorem phase2Canon_congr (θP : ℚ) (p₁ p₂ : List (Nat × Nat))
    (e₁ e₂ : List (Nat × Nat × List Nat)) (hp : p₁.Perm p₂)
    (he : e₁.Perm e₂) (hnd : (e₁.map fun e => e.1).Nodup) :
    phase2Canon θP p₁ e₁ = phase2Canon θP p₂ e₂ := by
  unfold phase2Canon
  rw [bucketsCanon_perm p₁ p₂ hp, minhashLookup_perm e₁ e₂ he hnd]

/-- C3: every preprocessing worker is constructed from one shared
parameter dict whose hash family is seeded by the fixed `RANDOM_SEED` —
`buildWorker` ignores the worker index — so any two workers compute
identical MinHash signatures and identical band keys for the same input;
and two runs over the same corpus with the same configuration produce the
identical final doc-collector state — the same surviving doc ids with the
same cluster-id mapping and the same removed set — and identical output
tables, whichever way either run assigns the tables to its workers.
Hypotheses: doc ids are globally unique (the spec data model), and the
shingler is stateless — the generic path, or a tokenizer that never
fails (a failure permanently flips the worker-local `is_japanese` flag,
see `ja_fallback_amended`, making the outcome genuinely depend on the
assignment). -/
theorem deterministic_across_workers (E : Ext) (p : RuntimeParams)
    (fcfg : FilterConfig) (θP : ℚ)
    (hst : p.is_japanese = false ∨
      ∀ text, E.tokenizer (E.text_normalize text) ≠ none)
    (W₁ W₂ : Nat) (assign₁ assign₂ : Nat → Nat) (tables : List Table)
    (h₁ : ∀ i, i < tables.length → assign₁ i < W₁)
    (h₂ : ∀ i, i < tables.length → assign₂ i < W₂)
    (hids : (tables.flatMap fun t => t.rows.map fun r => r.doc_id).Nodup) :
    (∀ i j, buildWorker E p i = buildWorker E p j) ∧
    (∀ i j (shingles : List (List Char)) (sig : List Nat),
      (buildWorker E p i).mn_min_hash.minhash E shingles =
        (buildWorker E p j).mn_min_hash.minhash E shingles ∧
      generate_buckets E (buildWorker E p i) sig =
        generate_buckets E (buildWorker E p j) sig) ∧
    runFdedupAssigned E p fcfg θP W₁ assign₁ tables =
      runFdedupAssigned E p fcfg θP W₂ assign₂ tables := by
  have hp1 := phase1Assigned_perm_flatMap E p hst W₁ assign₁ tables h₁
  have hp2 := phase1Assigned_perm_flatMap E p hst W₂ assign₂ tables h₂
  have hpairs : (phase1Assigned E p W₁ assign₁ tables).1.Perm
      (phase1Assigned E p W₂ assign₂ tables).1 :=
    hp1.1.trans hp2.1.symm
  have hentries : (phase1Assigned E p W₁ assign₁ tables).2.Perm
      (phase1Assigned E p W₂ assign₂ tables).2 :=
    hp1.2.trans hp2.2.symm
  have hsub := phase1_entry_keys_sublist E (buildWorker E p 0)
    p.is_japanese tables
  have hndflat : ((tables.flatMap fun t =>
      (preTransform E (buildWorker E p 0) p.is_japanese t).2.1).map
        fun e => e.1).Nodup := hids.sublist hsub
  have hnd1 : ((phase1Assigned E p W₁ assign₁ tables).2.map
      fun e => e.1).Nodup :=
    ((hp1.2.map fun e => e.1).nodup_iff).mpr hndflat
  have hdoc : phase2Canon θP (phase1Assigned E p W₁ assign₁ tables).1
        (phase1Assigned E p W₁ assign₁ tables).2 =
      phase2Canon θP (phase1Assigned E p W₂ assign₂ tables).1
        (phase1Assigned E p W₂ assign₂ tables).2 :=
    phase2Canon_congr θP _ _ _ _ hpairs hentries hnd1
  refine ⟨fun i j => rfl, fun i j shingles sig => ⟨rfl, rfl⟩, ?_⟩
  unfold runFdedupAssigned
  rw [hdoc]

/-- Witness for `deterministic_across_workers`: a two-table corpus with
distinct doc ids, one run on a single worker and one splitting the two
tables across two workers. -/
theorem deterministic_across_workers_witness :
    runFdedupAssigned extW rparamsW fcfgW 2 1 (fun _ => 0)
        [tableW, tableW2] =
      runFdedupAssigned extW rparamsW fcfgW 2 2 (fun i => i % 2)
        [tableW, tableW2] :=
  (deterministic_across_workers extW rparamsW fcfgW 2
    (Or.inl (by decide)) 1 2 (fun _ => 0) (fun i => i % 2)
    [tableW, tableW2] (fun _ _ => Nat.zero_lt_one)
    (fun i _ => Nat.mod_lt _ (by decide)) (by decide)).2.2

end Fdedup
